import Mathlib

/-!
A shallow embedding of the distributed dual-tree task queue
(`core/parallel/distributed_dualtree_task_queue.h`) and proofs about its
operations.  Trees, tasks and the five parallel arrays of the dispatcher are
modelled as Lean data; the per-subtree max-heaps are lists kept sorted by
descending priority (push = ordered insert, top = head, pop = tail); the
unsigned 64-bit counters are naturals reduced modulo 2^64 at each subtraction.
The metric computation (priority = negated midpoint of the squared-distance
range between the two bounds) is an external collaborator and enters as an
opaque-to-the-model function parameter `prio`.
-/

namespace TaskQueueModel

/-- A node of a spatial tree, carrying its (begin, count) identity.
Stands in for the C++ `TreeType *`; the structural equality of this type
models the pointer equality tests of the source (distinct live nodes of one
tree have distinct identities). -/
inductive Tree where
  | leaf : Nat → Nat → Tree
  | node : Nat → Nat → Tree → Tree → Tree
deriving DecidableEq, Repr

instance : Inhabited Tree := ⟨Tree.leaf 0 0⟩

/-- `begin()` of a tree node. -/
def Tree.begin : Tree → Nat
  | .leaf b _ => b
  | .node b _ _ _ => b

/-- `count()` of a tree node: the number of points below it. -/
def Tree.count : Tree → Nat
  | .leaf _ c => c
  | .node _ c _ _ => c

/-- `is_leaf()`. -/
def Tree.isLeaf : Tree → Bool
  | .leaf _ _ => true
  | .node _ _ _ _ => false

/-- `left()`.  The source only calls this on non-leaf nodes; on a leaf the
model returns the leaf itself. -/
def Tree.left : Tree → Tree
  | .leaf b c => .leaf b c
  | .node _ _ l _ => l

/-- `right()`.  The source only calls this on non-leaf nodes. -/
def Tree.right : Tree → Tree
  | .leaf b c => .leaf b c
  | .node _ _ _ r => r

/-- A work-coverage triple (rank, lower, upper) as inserted into the
per-subtree interval sets. -/
abbrev Triple := Nat × Nat × Nat

/-- Modelled from the spec: `core::parallel::DisjointIntIntervals` (its header
is not part of the sources here).  The spec describes it as a set of intervals
over (rank, lo, hi) triples with idempotent insertion: `Insert` returns true
on first insertion of a given interval and false when the interval is already
covered, leaving the set unchanged in that case. -/
def diiInsert (t : Triple) (s : List Triple) : Bool × List Triple :=
  if t ∈ s then (false, s) else (true, t :: s)

/-- A task: (query node, reference table, reference node, cache id, priority).
The reference table is represented by its rank (the only observation the
dispatcher makes of it); the reference node is optional because the C++
pointer it models can be null after a failed cache lookup. -/
structure Task where
  queryNode : Tree
  refRank : Nat
  refNode : Option Tree
  cacheId : Nat
  priority : Int
deriving DecidableEq, Repr

instance : Inhabited Task := ⟨⟨default, 0, none, 0, 0⟩⟩

/-- Push into a per-subtree priority queue, modelled as a list sorted by
descending priority: the head is the max-heap's `top()`. -/
def heapPush (t : Task) : List Task → List Task
  | [] => [t]
  | x :: xs => if x.priority < t.priority then t :: x :: xs else x :: heapPush t xs

/-- A cached reference subtable: the observations the dispatcher makes of
`SubTableType` are `table()->rank()` and `table()->get_tree()`. -/
structure SubTableM where
  rank : Nat
  tree : Tree
deriving DecidableEq, Repr

/-- Modelled from the spec: the slice of the Exchange (`table_exchange.h`, not
among the sources here) that `GenerateTasks` consults: `FindSubTable` by cache
id, the local table (observed through its rank), and the
`FindByBeginCount` fallback against the local table. -/
structure Exchange where
  findSubTable : Nat → Option SubTableM
  localRank : Nat
  findByBeginCount : Nat → Nat → Option Tree

/-- 2^64, the modulus of the C++ `unsigned long int` counters. -/
def W64 : Nat := 2 ^ 64

/-- Subtraction of unsigned 64-bit values: wraps modulo 2^64 exactly as the
C++ `a -= b` does. -/
def sub64 (a b : Nat) : Nat := (a + (W64 - b % W64)) % W64

/-- The state of `DistributedDualtreeTaskQueue`.  Field names follow the
source.  `lockLog` records the `table_exchange_.LockCache(id, n)` calls the
dispatcher issues (the refcount side effect living in the Exchange). -/
structure TaskQueue where
  query_subtrees_ : List Tree
  assigned_work_ : List (List Triple)
  remaining_work_for_query_subtrees_ : List Nat
  query_subtree_locks_ : List Bool
  tasks_ : List (List Task)
  split_subtree_after_unlocking_ : Bool
  num_remaining_tasks_ : Int
  remaining_global_computation_ : Nat
  remaining_local_computation_ : Nat
  lockLog : List (Nat × Nat)
deriving Repr

/-- The priority the source computes at push time,
`- RangeDistanceSq(metric, q->bound(), n->bound()).mid()`, abstracted over the
metric as `prio`.  The `none` case never arises along the fault-accurate
push path (`PushTask_F` below faults on a null reference node before this
value would be computed); the arbitrary value 0 merely totalizes the
defined-behavior functions built on `PushTask_`. -/
def taskPriority (prio : Tree → Tree → Int) (q : Tree) : Option Tree → Int
  | some n => prio q n
  | none => 0

/-- The task `PushTask_` builds for slot `push_index`. -/
def pushedTask (prio : Tree → Tree → Int) (push_index : Nat)
    (refRank : Nat) (refNode : Option Tree) (cacheId : Nat)
    (st : TaskQueue) : Task :=
  ⟨st.query_subtrees_.getD push_index default, refRank, refNode, cacheId,
   taskPriority prio (st.query_subtrees_.getD push_index default) refNode⟩

/-- `PushTask_`: build the task with the freshly computed priority of the
pair (query subtree at `push_index`, reference node) and push it onto that
subtree's heap, incrementing `num_remaining_tasks_`. -/
def PushTask_ (prio : Tree → Tree → Int) (push_index : Nat)
    (refRank : Nat) (refNode : Option Tree) (cacheId : Nat)
    (st : TaskQueue) : TaskQueue :=
  { st with
    tasks_ := st.tasks_.set push_index
      (heapPush (pushedTask prio push_index refRank refNode cacheId st)
        (st.tasks_.getD push_index [])),
    num_remaining_tasks_ := st.num_remaining_tasks_ + 1 }

/-- `table_exchange_.LockCache(cache_id, num_times)`: append the increment to
the lock log. -/
def LockCache (cache_id num_times : Nat) (st : TaskQueue) : TaskQueue :=
  { st with lockLog := st.lockLog ++ [(cache_id, num_times)] }

/-- One iteration of the inner loop of `GenerateTasks`: for query subtree `j`,
insert the coverage triple into `assigned_work_[j]`; on first insertion push
one task and lock the cache entry once. -/
def genStep (prio : Tree → Tree → Int) (refRank reference_begin reference_count cache_id : Nat)
    (refNode : Option Tree) (j : Nat) (st : TaskQueue) : TaskQueue :=
  let tr : Triple := (refRank, reference_begin, reference_begin + reference_count)
  let aw := st.assigned_work_.getD j []
  let ins := diiInsert tr aw
  if ins.1 then
    LockCache cache_id 1
      (PushTask_ prio j refRank refNode cache_id
        { st with assigned_work_ := st.assigned_work_.set j ins.2 })
  else st

/-- Processing of one received subtable id (srcRank, refBegin, refCount,
cacheId) inside `GenerateTasks`: resolve the subtable through the cache with
the local-table fallback, then run the inner loop over every live query
subtree. -/
def genArrival (prio : Tree → Tree → Int) (exch : Exchange)
    (st : TaskQueue) (arr : Nat × Nat × Nat × Nat) : TaskQueue :=
  let reference_begin := arr.2.1
  let reference_count := arr.2.2.1
  let cache_id := arr.2.2.2
  let sub := exch.findSubTable cache_id
  let refRank := match sub with
    | some s => s.rank
    | none => exch.localRank
  let refNode : Option Tree := match sub with
    | some s => some s.tree
    | none => exch.findByBeginCount reference_begin reference_count
  (List.range st.query_subtrees_.length).foldl
    (fun s j => genStep prio refRank reference_begin reference_count cache_id refNode j s) st

/-- `GenerateTasks`: process every received subtable id in order.  This is
the defined-behavior form: it presumes every pushed task's reference node is
non-null.  `GenerateTasksF` below is the fault-accurate form, which agrees
with this one whenever the reference node resolves (`genArrivalF_some`). -/
def GenerateTasks (prio : Tree → Tree → Int) (exch : Exchange)
    (arrivals : List (Nat × Nat × Nat × Nat)) (st : TaskQueue) : TaskQueue :=
  arrivals.foldl (genArrival prio exch) st

/-- The fault-accurate form of `PushTask_`: the priority computation reads
`reference_table_node_pair.get<1>()->bound()`, so a null reference node is
dereferenced there — before the task is constructed, pushed, or any cache
lock is taken.  That fatal fault is the result `none`. -/
def PushTask_F (prio : Tree → Tree → Int) (push_index : Nat)
    (refRank : Nat) (refNode : Option Tree) (cacheId : Nat)
    (st : TaskQueue) : Option TaskQueue :=
  match refNode with
  | some n => some (PushTask_ prio push_index refRank (some n) cacheId st)
  | none => none

/-- The fault-accurate form of `genStep`: on a first insertion the push runs
before the lock, and a null reference node faults inside the push. -/
def genStepF (prio : Tree → Tree → Int)
    (refRank reference_begin reference_count cache_id : Nat)
    (refNode : Option Tree) (j : Nat) (st : TaskQueue) : Option TaskQueue :=
  let tr : Triple := (refRank, reference_begin, reference_begin + reference_count)
  let aw := st.assigned_work_.getD j []
  let ins := diiInsert tr aw
  if ins.1 then
    (PushTask_F prio j refRank refNode cache_id
      { st with assigned_work_ := st.assigned_work_.set j ins.2 }).map
      (LockCache cache_id 1)
  else some st

/-- The fault-accurate form of `genArrival`: a fault in any inner-loop step
kills the whole call. -/
def genArrivalF (prio : Tree → Tree → Int) (exch : Exchange)
    (st : TaskQueue) (arr : Nat × Nat × Nat × Nat) : Option TaskQueue :=
  let reference_begin := arr.2.1
  let reference_count := arr.2.2.1
  let cache_id := arr.2.2.2
  let sub := exch.findSubTable cache_id
  let refRank := match sub with
    | some s => s.rank
    | none => exch.localRank
  let refNode : Option Tree := match sub with
    | some s => some s.tree
    | none => exch.findByBeginCount reference_begin reference_count
  (List.range st.query_subtrees_.length).foldl
    (fun os j => os.bind fun s =>
      genStepF prio refRank reference_begin reference_count cache_id refNode j s)
    (some st)

/-- The fault-accurate form of `GenerateTasks`: once a tuple faults, the
remaining tuples of the call are never processed. -/
def GenerateTasksF (prio : Tree → Tree → Int) (exch : Exchange)
    (arrivals : List (Nat × Nat × Nat × Nat)) (st : TaskQueue) : Option TaskQueue :=
  arrivals.foldl (fun os arr => os.bind fun s => genArrivalF prio exch s arr) (some st)

/-- The targeted form of `DequeueTask(probe_index, task_out, lock)`: act only
when the heap at `probe_index` is non-empty and the subtree is unlocked; the
result pairs the final value of the out-parameter with the final state. -/
def DequeueTaskAt (probe_index : Nat) (task_out : Task × Nat)
    (lock_query_subtree_in : Bool) (st : TaskQueue) : (Task × Nat) × TaskQueue :=
  match st.tasks_.getD probe_index [] with
  | [] => (task_out, st)
  | t :: rest =>
    if st.query_subtree_locks_.getD probe_index false then (task_out, st)
    else
      ((t, probe_index),
       { st with
         tasks_ := st.tasks_.set probe_index rest,
         query_subtree_locks_ := st.query_subtree_locks_.set probe_index lock_query_subtree_in,
         num_remaining_tasks_ := st.num_remaining_tasks_ - 1 })

/-- The swap-and-pop retirement of slot `probe_index` inside the untargeted
`DequeueTask`: copy the tail entry (`back()`) into the slot across all five
parallel arrays, then truncate each by one. -/
def compact (probe_index : Nat) (st : TaskQueue) : TaskQueue :=
  { st with
    query_subtrees_ :=
      (st.query_subtrees_.set probe_index
        (st.query_subtrees_.getD (st.query_subtrees_.length - 1) default)).dropLast,
    assigned_work_ :=
      (st.assigned_work_.set probe_index
        (st.assigned_work_.getD (st.assigned_work_.length - 1) [])).dropLast,
    remaining_work_for_query_subtrees_ :=
      (st.remaining_work_for_query_subtrees_.set probe_index
        (st.remaining_work_for_query_subtrees_.getD
          (st.remaining_work_for_query_subtrees_.length - 1) 0)).dropLast,
    query_subtree_locks_ :=
      (st.query_subtree_locks_.set probe_index
        (st.query_subtree_locks_.getD (st.query_subtree_locks_.length - 1) false)).dropLast,
    tasks_ :=
      (st.tasks_.set probe_index
        (st.tasks_.getD (st.tasks_.length - 1) [])).dropLast }

/-- The scan of the untargeted `DequeueTask`, from `probe_index` upward: pop
at the first unlocked slot with a non-empty heap; retire (and re-examine) a
slot whose heap is empty and whose remaining work is zero; otherwise advance. -/
def DequeueLoop (lock_query_subtree_in : Bool) (task_out : Task × Nat)
    (st : TaskQueue) (probe_index : Nat) : (Task × Nat) × TaskQueue :=
  if h : probe_index < st.tasks_.length then
    match st.tasks_.getD probe_index [] with
    | t :: rest =>
      if st.query_subtree_locks_.getD probe_index false then
        DequeueLoop lock_query_subtree_in task_out st (probe_index + 1)
      else
        ((t, probe_index),
         { st with
           tasks_ := st.tasks_.set probe_index rest,
           query_subtree_locks_ := st.query_subtree_locks_.set probe_index lock_query_subtree_in,
           num_remaining_tasks_ := st.num_remaining_tasks_ - 1 })
    | [] =>
      if st.remaining_work_for_query_subtrees_.getD probe_index 0 = 0 then
        DequeueLoop lock_query_subtree_in task_out (compact probe_index st) probe_index
      else
        DequeueLoop lock_query_subtree_in task_out st (probe_index + 1)
  else (task_out, st)
termination_by st.tasks_.length - probe_index
decreasing_by
  · omega
  · simp only [compact, List.length_dropLast, List.length_set]
    omega
  · omega

/-- The untargeted form of `DequeueTask(task_out, lock)`: scan from index 0. -/
def DequeueTask (task_out : Task × Nat) (lock_query_subtree_in : Bool)
    (st : TaskQueue) : (Task × Nat) × TaskQueue :=
  DequeueLoop lock_query_subtree_in task_out st 0

/-- The array phase of `split_subtree_`: overwrite slot `subtree_index` with
the left child, append the right child together with an unlocked lock bit, a
fresh empty heap, a copy of the parent's interval set and the parent's
remaining-work credit; drain the parent's heap.  The drain is the net effect
of the source's while-loop of targeted dequeues with `lock = false`, which
terminates with the whole heap exactly because the caller selected an
unlocked slot. -/
def splitArrays (subtree_index : Nat) (st : TaskQueue) : List Task × TaskQueue :=
  let prev_qnode := st.query_subtrees_.getD subtree_index default
  let drained := st.tasks_.getD subtree_index []
  (drained,
   { st with
     query_subtrees_ := (st.query_subtrees_.set subtree_index prev_qnode.left) ++ [prev_qnode.right],
     query_subtree_locks_ := st.query_subtree_locks_ ++ [false],
     tasks_ := (st.tasks_.set subtree_index []) ++ [[]],
     assigned_work_ := st.assigned_work_ ++ [st.assigned_work_.getD subtree_index []],
     remaining_work_for_query_subtrees_ :=
       st.remaining_work_for_query_subtrees_ ++
         [st.remaining_work_for_query_subtrees_.getD subtree_index 0],
     num_remaining_tasks_ := st.num_remaining_tasks_ - drained.length })

/-- Re-emission of one drained task during a split.  When the reference node
is a non-leaf equal to the previous query node, the reference side is split
too: four pushes and three extra cache locks; otherwise two pushes and one
extra lock.  A null reference node (modelled `none`) would make the C++
dereference null in `is_leaf()`; real heaps never hold such a task (every
pushed task's node survived the priority computation), so the theorems about
re-emission hypothesize a resolved (`some`) node and the `none` branch is an
unreachable totalization. -/
def reEmitTask (prio : Tree → Tree → Int) (prev_qnode : Tree)
    (left_index right_index : Nat) (st : TaskQueue) (t : Task) : TaskQueue :=
  match t.refNode with
  | some n =>
    if !n.isLeaf && prev_qnode == n then
      LockCache t.cacheId 3
        (PushTask_ prio right_index t.refRank (some n.right) t.cacheId
          (PushTask_ prio right_index t.refRank (some n.left) t.cacheId
            (PushTask_ prio left_index t.refRank (some n.right) t.cacheId
              (PushTask_ prio left_index t.refRank (some n.left) t.cacheId st))))
    else
      LockCache t.cacheId 1
        (PushTask_ prio right_index t.refRank (some n) t.cacheId
          (PushTask_ prio left_index t.refRank (some n) t.cacheId st))
  | none =>
      LockCache t.cacheId 1
        (PushTask_ prio right_index t.refRank none t.cacheId
          (PushTask_ prio left_index t.refRank none t.cacheId st))

/-- `split_subtree_`: the array phase followed by the re-emission of every
drained task in drain order.  The right child lives at the old array length. -/
def split_subtree_ (prio : Tree → Tree → Int) (subtree_index : Nat)
    (st : TaskQueue) : TaskQueue :=
  let prev_qnode := st.query_subtrees_.getD subtree_index default
  let right_index := st.query_subtrees_.length
  let p := splitArrays subtree_index st
  p.1.foldl (reEmitTask prio prev_qnode subtree_index right_index) p.2

/-- One iteration of the selection loop of `RedistributeAmongCores`: the
accumulator carries (largest point count seen, index that achieved it). -/
def selectStep (st : TaskQueue) (acc : Nat × Option Nat) (i : Nat) : Nat × Option Nat :=
  if (st.query_subtree_locks_.getD i false) = false ∧
      (st.query_subtrees_.getD i default).isLeaf = false ∧
      0 < (st.tasks_.getD i []).length ∧
      acc.1 < (st.query_subtrees_.getD i default).count then
    ((st.query_subtrees_.getD i default).count, some i)
  else acc

/-- The selection loop of `RedistributeAmongCores` over every live subtree. -/
def selectSplit (st : TaskQueue) : Nat × Option Nat :=
  (List.range st.query_subtrees_.length).foldl (selectStep st) (0, none)

/-- `RedistributeAmongCores`: when the split flag is set, split the selected
subtree (when one exists) and clear the flag in every case. -/
def RedistributeAmongCores (prio : Tree → Tree → Int) (st : TaskQueue) : TaskQueue :=
  if st.split_subtree_after_unlocking_ then
    let st' :=
      match (selectSplit st).2 with
      | some i => split_subtree_ prio i st
      | none => st
    { st' with split_subtree_after_unlocking_ := false }
  else st

/-- `FindQuerySubtreeIndex_`: the first index whose subtree matches the
(begin, count) components of the id; the C++ returns -1 on a miss, modelled
as `none`. -/
def FindQuerySubtreeIndex_ (query_node_id : Triple) (st : TaskQueue) : Option Nat :=
  st.query_subtrees_.findIdx?
    (fun q => query_node_id.2.1 == q.begin && query_node_id.2.2 == q.count)

/-- `UnlockQuerySubtree`: clear the lock bit of the matched subtree.  On a
lookup miss the C++ writes `query_subtree_locks_[-1]`, an out-of-bounds access
on which the program is dead; the model returns `none` there. -/
def UnlockQuerySubtree (query_subtree_id : Triple) (st : TaskQueue) : Option TaskQueue :=
  match FindQuerySubtreeIndex_ query_subtree_id st with
  | some i =>
      some { st with query_subtree_locks_ := st.query_subtree_locks_.set i false }
  | none => none

/-- The targeted `push_completed_computation(query_node_id, refCount, units)`:
subtract the units from both global counters, then subtract the reference
count from the matched subtree's remaining work.  On a lookup miss the C++
writes `remaining_work_for_query_subtrees_[-1]`: out of bounds, modelled
`none`. -/
def push_completed_computation (query_node_id : Triple)
    (reference_count_in quantity_in : Nat) (st : TaskQueue) : Option TaskQueue :=
  let st1 :=
    { st with
      remaining_global_computation_ := sub64 st.remaining_global_computation_ quantity_in,
      remaining_local_computation_ := sub64 st.remaining_local_computation_ quantity_in }
  match FindQuerySubtreeIndex_ query_node_id st1 with
  | some i =>
      some { st1 with
             remaining_work_for_query_subtrees_ :=
               st1.remaining_work_for_query_subtrees_.set i
                 (sub64 (st1.remaining_work_for_query_subtrees_.getD i 0) reference_count_in) }
  | none => none

/-- Subtract (mod 2^64) a reference count from the first `k` entries of the
remaining-work array: the bulk completion loops `i` below
`query_subtrees_.size()`. -/
def decFirstK (reference_count_in : Nat) : Nat → List Nat → List Nat
  | 0, l => l
  | _ + 1, [] => []
  | k + 1, w :: ws => sub64 w reference_count_in :: decFirstK reference_count_in k ws

/-- The bulk `push_completed_computation(refCount, units)`: subtract the units
from both global counters and the reference count from every live subtree's
remaining work. -/
def push_completed_computation_bulk (reference_count_in quantity_in : Nat)
    (st : TaskQueue) : TaskQueue :=
  { st with
    remaining_global_computation_ := sub64 st.remaining_global_computation_ quantity_in,
    remaining_local_computation_ := sub64 st.remaining_local_computation_ quantity_in,
    remaining_work_for_query_subtrees_ :=
      decFirstK reference_count_in st.query_subtrees_.length
        st.remaining_work_for_query_subtrees_ }

/-- `Init` (together with the zeroing constructor): size every parallel array
from the frontier the external partitioner returned, seed each subtree's
remaining work with the global reference-point count, and set the two global
counters from the point totals.  `query_counts` and `reference_counts` list
`local_n_entries(i)` per rank; `local_query_count` is the local table's
`n_entries()`. -/
def Init (frontier : List Tree) (query_counts reference_counts : List Nat)
    (local_query_count : Nat) : TaskQueue :=
  let total_query := query_counts.sum
  let total_ref := reference_counts.sum
  { query_subtrees_ := frontier,
    assigned_work_ := List.replicate frontier.length [],
    remaining_work_for_query_subtrees_ := List.replicate frontier.length total_ref,
    query_subtree_locks_ := List.replicate frontier.length false,
    tasks_ := List.replicate frontier.length [],
    split_subtree_after_unlocking_ := false,
    num_remaining_tasks_ := 0,
    remaining_global_computation_ := (total_query * total_ref) % W64,
    remaining_local_computation_ := (local_query_count * total_ref) % W64,
    lockLog := [] }

/-- The rank a received subtable id resolves to inside `GenerateTasks`: the
cached subtable's table rank, or the local table's rank on a miss. -/
def arrRank (exch : Exchange) (arr : Nat × Nat × Nat × Nat) : Nat :=
  match exch.findSubTable arr.2.2.2 with
  | some s => s.rank
  | none => exch.localRank

/-- The reference starting node a received subtable id resolves to inside
`GenerateTasks`. -/
def refNodeOf (exch : Exchange) (arr : Nat × Nat × Nat × Nat) : Option Tree :=
  match exch.findSubTable arr.2.2.2 with
  | some s => some s.tree
  | none => exch.findByBeginCount arr.2.1 arr.2.2.1

/-- The coverage triple (rank, refBegin, refBegin + refCount) that
`GenerateTasks` inserts into every interval set for a received subtable id. -/
def arrTriple (exch : Exchange) (arr : Nat × Nat × Nat × Nat) : Triple :=
  (arrRank exch arr, arr.2.1, arr.2.1 + arr.2.2.1)

/-- The (rank, begin, begin + count) reference interval a task covers, read
from its reference table rank and reference node. -/
def taskTriple (t : Task) : Triple :=
  (t.refRank,
   match t.refNode with
   | some n => n.begin
   | none => 0,
   match t.refNode with
   | some n => n.begin + n.count
   | none => 0)

/-- The number of tasks in heap `q` covering the reference interval `tr`. -/
def tcount (q : Nat) (tr : Triple) (st : TaskQueue) : Nat :=
  (st.tasks_.getD q []).countP (fun t => taskTriple t == tr)

/-- Eligibility for splitting, as tested by the selection loop of
`RedistributeAmongCores`: unlocked, non-leaf, and a non-empty heap. -/
def eligible (st : TaskQueue) (i : Nat) : Prop :=
  st.query_subtree_locks_.getD i false = false ∧
  (st.query_subtrees_.getD i default).isLeaf = false ∧
  0 < (st.tasks_.getD i []).length

instance (st : TaskQueue) (i : Nat) : Decidable (eligible st i) := by
  unfold eligible
  infer_instance

/-- The point count of the query subtree at slot `i`. -/
def countOf (st : TaskQueue) (i : Nat) : Nat :=
  (st.query_subtrees_.getD i default).count

/-- The parallel-array alignment invariant: the five arrays
`query_subtrees_`, `assigned_work_`, `remaining_work_for_query_subtrees_`,
`query_subtree_locks_` and `tasks_` all have the same length. -/
def Aligned (st : TaskQueue) : Prop :=
  st.assigned_work_.length = st.query_subtrees_.length ∧
  st.remaining_work_for_query_subtrees_.length = st.query_subtrees_.length ∧
  st.query_subtree_locks_.length = st.query_subtrees_.length ∧
  st.tasks_.length = st.query_subtrees_.length

/-- The total number of tasks across all per-subtree heaps. -/
def sumTasks (st : TaskQueue) : Nat :=
  (st.tasks_.map List.length).sum

/-- The task-count invariant: `num_remaining_tasks_` equals the sum over
every live query subtree of the size of its heap. -/
def TaskCountInv (st : TaskQueue) : Prop :=
  st.num_remaining_tasks_ = (sumTasks st : Int)

/-! ### Concrete instances used to instantiate theorems -/

/-- A non-leaf query subtree with 10 points. -/
def exTree0 : Tree := Tree.node 0 10 (Tree.leaf 0 5) (Tree.leaf 5 5)

/-- A leaf query subtree with 6 points. -/
def exTree1 : Tree := Tree.leaf 10 6

/-- A pending task for `exTree1`. -/
def exTask0 : Task := ⟨exTree1, 0, some (Tree.leaf 0 5), 3, 2⟩

/-- A concrete dispatcher state with two live subtrees; slot 0 is unlocked
with an empty heap, slot 1 is locked with one pending task. -/
def exSt : TaskQueue :=
  { query_subtrees_ := [exTree0, exTree1],
    assigned_work_ := [[], []],
    remaining_work_for_query_subtrees_ := [16, 16],
    query_subtree_locks_ := [false, true],
    tasks_ := [[], [exTask0]],
    split_subtree_after_unlocking_ := false,
    num_remaining_tasks_ := 1,
    remaining_global_computation_ := 5,
    remaining_local_computation_ := 5,
    lockLog := [] }

/-- An exchange on which every lookup misses. -/
def exExchMiss : Exchange :=
  { findSubTable := fun _ => none,
    localRank := 0,
    findByBeginCount := fun _ _ => none }

/-- A concrete priority function standing in for the metric computation. -/
def exPrio : Tree → Tree → Int := fun _ _ => 0

/-- An exchange holding one cached subtable, id 7: rank 1, interval
[0, 50); the by-(begin, count) fallback resolves within the local table. -/
def exExch7 : Exchange :=
  { findSubTable := fun cid => if cid = 7 then some ⟨1, Tree.leaf 0 50⟩ else none,
    localRank := 0,
    findByBeginCount := fun b c => some (Tree.leaf b c) }

/-- An exchange holding only the cached subtable with id 7; every other
cache id misses and the by-(begin, count) fallback resolves nothing. -/
def exExchMix : Exchange :=
  { findSubTable := fun cid => if cid = 7 then some ⟨1, Tree.leaf 0 50⟩ else none,
    localRank := 0,
    findByBeginCount := fun _ _ => none }

/-! ### List index helpers -/

theorem getD_oob {α : Type} (l : List α) (i : Nat) (d : α) (h : l.length ≤ i) :
    l.getD i d = d := by
  induction l generalizing i with
  | nil => simp [List.getD]
  | cons x xs ih =>
    cases i with
    | zero => simp at h
    | succ j => simpa [List.getD] using ih j (by simpa using h)

theorem getD_set_self {α : Type} (l : List α) (i : Nat) (a d : α) (h : i < l.length) :
    (l.set i a).getD i d = a := by
  induction l generalizing i with
  | nil => simp at h
  | cons x xs ih =>
    cases i with
    | zero => simp [List.getD]
    | succ j => simpa [List.getD] using ih j (by simpa using h)

theorem getD_set_ne {α : Type} (l : List α) (i j : Nat) (a d : α) (h : i ≠ j) :
    (l.set i a).getD j d = l.getD j d := by
  induction l generalizing i j with
  | nil => simp
  | cons x xs ih =>
    cases i with
    | zero =>
      cases j with
      | zero => exact absurd rfl h
      | succ j2 => simp [List.getD]
    | succ i2 =>
      cases j with
      | zero => simp [List.getD]
      | succ j2 => simpa [List.getD] using ih i2 j2 (by omega)

theorem getD_dropLast {α : Type} (l : List α) (i : Nat) (d : α) (h : i + 1 < l.length) :
    l.dropLast.getD i d = l.getD i d := by
  induction l generalizing i with
  | nil => simp at h
  | cons x xs ih =>
    cases xs with
    | nil => simp at h
    | cons y ys =>
      cases i with
      | zero => simp [List.getD]
      | succ j =>
        have := ih j (by simpa using h)
        simpa [List.getD, List.dropLast] using this

theorem getD_append_left {α : Type} (l m : List α) (i : Nat) (d : α) (h : i < l.length) :
    (l ++ m).getD i d = l.getD i d := by
  induction l generalizing i with
  | nil => simp at h
  | cons x xs ih =>
    cases i with
    | zero => simp [List.getD]
    | succ j => simpa [List.getD] using ih j (by simpa using h)

theorem getD_append_len {α : Type} (l : List α) (x d : α) :
    (l ++ [x]).getD l.length d = x := by
  induction l with
  | nil => simp [List.getD]
  | cons y ys ih => simpa [List.getD] using ih

/-! ### Frame lemmas for the push and lock helpers -/

theorem PushTask_queries (prio : Tree → Tree → Int) (i rr : Nat) (rn : Option Tree)
    (c : Nat) (st : TaskQueue) :
    (PushTask_ prio i rr rn c st).query_subtrees_ = st.query_subtrees_ := rfl

theorem PushTask_aw (prio : Tree → Tree → Int) (i rr : Nat) (rn : Option Tree)
    (c : Nat) (st : TaskQueue) :
    (PushTask_ prio i rr rn c st).assigned_work_ = st.assigned_work_ := rfl

theorem PushTask_rw (prio : Tree → Tree → Int) (i rr : Nat) (rn : Option Tree)
    (c : Nat) (st : TaskQueue) :
    (PushTask_ prio i rr rn c st).remaining_work_for_query_subtrees_
      = st.remaining_work_for_query_subtrees_ := rfl

theorem PushTask_locks (prio : Tree → Tree → Int) (i rr : Nat) (rn : Option Tree)
    (c : Nat) (st : TaskQueue) :
    (PushTask_ prio i rr rn c st).query_subtree_locks_ = st.query_subtree_locks_ := rfl

theorem PushTask_tasks (prio : Tree → Tree → Int) (i rr : Nat) (rn : Option Tree)
    (c : Nat) (st : TaskQueue) :
    (PushTask_ prio i rr rn c st).tasks_
      = st.tasks_.set i (heapPush (pushedTask prio i rr rn c st) (st.tasks_.getD i [])) := rfl

theorem PushTask_num (prio : Tree → Tree → Int) (i rr : Nat) (rn : Option Tree)
    (c : Nat) (st : TaskQueue) :
    (PushTask_ prio i rr rn c st).num_remaining_tasks_
      = st.num_remaining_tasks_ + 1 := rfl

theorem PushTask_lockLog (prio : Tree → Tree → Int) (i rr : Nat) (rn : Option Tree)
    (c : Nat) (st : TaskQueue) :
    (PushTask_ prio i rr rn c st).lockLog = st.lockLog := rfl

theorem PushTask_tasks_getD_self (prio : Tree → Tree → Int) (i rr : Nat)
    (rn : Option Tree) (c : Nat) (st : TaskQueue) (h : i < st.tasks_.length) :
    (PushTask_ prio i rr rn c st).tasks_.getD i []
      = heapPush (pushedTask prio i rr rn c st) (st.tasks_.getD i []) := by
  rw [PushTask_tasks]
  exact getD_set_self _ _ _ _ h

theorem PushTask_tasks_getD_ne (prio : Tree → Tree → Int) (i j rr : Nat)
    (rn : Option Tree) (c : Nat) (st : TaskQueue) (h : i ≠ j) :
    (PushTask_ prio i rr rn c st).tasks_.getD j [] = st.tasks_.getD j [] := by
  rw [PushTask_tasks]
  exact getD_set_ne _ _ _ _ _ h

theorem LockCache_tasks (c n : Nat) (st : TaskQueue) :
    (LockCache c n st).tasks_ = st.tasks_ := rfl

theorem LockCache_num (c n : Nat) (st : TaskQueue) :
    (LockCache c n st).num_remaining_tasks_ = st.num_remaining_tasks_ := rfl

theorem LockCache_lockLog (c n : Nat) (st : TaskQueue) :
    (LockCache c n st).lockLog = st.lockLog ++ [(c, n)] := rfl

/-! ### C10: frame property of the targeted dequeue -/

/-- C10: for every valid index whose heap is empty, and for every valid index
whose heap is non-empty but whose subtree lock is true, the targeted
`DequeueTask` returns leaving every dispatcher field unchanged and leaving
the caller-supplied out-parameter exactly as the caller initialized it. -/
theorem targeted_dequeue_frame (st : TaskQueue) (probe_index : Nat)
    (task_out : Task × Nat) (lock_in : Bool)
    (hlen : probe_index < st.tasks_.length)
    (h : st.tasks_.getD probe_index [] = [] ∨
         (st.tasks_.getD probe_index [] ≠ [] ∧
          st.query_subtree_locks_.getD probe_index false = true)) :
    DequeueTaskAt probe_index task_out lock_in st = (task_out, st) := by
  unfold DequeueTaskAt
  rcases h with h | ⟨hne, hl⟩
  · rw [h]
  · cases hm : st.tasks_.getD probe_index [] with
    | nil => rfl
    | cons t rest => exact if_pos hl

/-- Witness for C10 at the concrete state: slot 0 has an empty heap (out
parameter untouched), and the theorem also applies to locked slot 1. -/
theorem targeted_dequeue_frame_witness :
    DequeueTaskAt 0 (default, 0) true exSt = ((default, 0), exSt) ∧
    DequeueTaskAt 1 (default, 5) true exSt = ((default, 5), exSt) :=
  ⟨targeted_dequeue_frame exSt 0 (default, 0) true (by decide)
      (Or.inl (by decide)),
   targeted_dequeue_frame exSt 1 (default, 5) true (by decide)
      (Or.inr (by decide))⟩

/-! ### C7: the completion counters wrap instead of saturating -/

/-- `getD` of the bulk decrement of the first `k` remaining-work entries. -/
theorem decFirstK_getD (rc : Nat) (k : Nat) (l : List Nat) (i : Nat)
    (h1 : i < k) (h2 : i < l.length) :
    (decFirstK rc k l).getD i 0 = sub64 (l.getD i 0) rc := by
  induction l generalizing i k with
  | nil => simp at h2
  | cons x xs ih =>
    cases k with
    | zero => omega
    | succ k2 =>
      cases i with
      | zero => simp [decFirstK, List.getD]
      | succ j =>
        simpa [decFirstK, List.getD] using ih k2 j (by omega) (by simpa using h2)

/-- C7 counterexample: with `RemainingGlobalWork = 5`, reporting 7 completed
units leaves the counter at 2^64 - 2: it does not saturate at zero, and it
strictly increases, contradicting saturation and monotone non-increase. -/
theorem push_completed_wraps_counterexample :
    (push_completed_computation_bulk 7 7 exSt).remaining_global_computation_ = 2 ^ 64 - 2 ∧
    (push_completed_computation_bulk 7 7 exSt).remaining_global_computation_ ≠ 0 ∧
    exSt.remaining_global_computation_ <
      (push_completed_computation_bulk 7 7 exSt).remaining_global_computation_ := by
  refine ⟨?_, ?_, ?_⟩ <;> norm_num [push_completed_computation_bulk, sub64, W64, exSt]

/-- C7 amended: both completion forms subtract modulo 2^64 (wrapping on
underflow, no saturation); the counters are non-increasing exactly under the
no-underflow precondition that the subtracted amount (reduced mod 2^64) does
not exceed the counter's current value below 2^64. -/
theorem push_completed_wraps (st st2 : TaskQueue) (qid : Triple) (rc q i : Nat) :
    ((push_completed_computation_bulk rc q st).remaining_global_computation_
        = sub64 st.remaining_global_computation_ q) ∧
    ((push_completed_computation_bulk rc q st).remaining_local_computation_
        = sub64 st.remaining_local_computation_ q) ∧
    (i < st.query_subtrees_.length →
      i < st.remaining_work_for_query_subtrees_.length →
      (push_completed_computation_bulk rc q st).remaining_work_for_query_subtrees_.getD i 0
        = sub64 (st.remaining_work_for_query_subtrees_.getD i 0) rc) ∧
    (push_completed_computation qid rc q st = some st2 →
      st2.remaining_global_computation_ = sub64 st.remaining_global_computation_ q ∧
      st2.remaining_local_computation_ = sub64 st.remaining_local_computation_ q) ∧
    (∀ a b : Nat, a < W64 → b % W64 ≤ a → sub64 a b ≤ a) := by
  refine ⟨rfl, rfl, ?_, ?_, ?_⟩
  · intro h1 h2
    exact decFirstK_getD rc _ _ i h1 h2
  · intro h
    unfold push_completed_computation at h
    simp only at h
    cases hf : FindQuerySubtreeIndex_ qid
        { st with
          remaining_global_computation_ := sub64 st.remaining_global_computation_ q,
          remaining_local_computation_ := sub64 st.remaining_local_computation_ q } with
    | none => rw [hf] at h; exact absurd h (by simp)
    | some j =>
      rw [hf] at h
      simp only [Option.some.injEq] at h
      subst h
      exact ⟨rfl, rfl⟩
  · intro a b ha hb
    unfold sub64
    have hw : 0 < W64 := by norm_num [W64]
    have hm : b % W64 < W64 := Nat.mod_lt _ hw
    have he : a + (W64 - b % W64) = (a - b % W64) + W64 := by omega
    rw [he, Nat.add_mod_right, Nat.mod_eq_of_lt (by omega)]
    omega

/-- Witness for `push_completed_wraps` at the concrete state. -/
theorem push_completed_wraps_witness :
    (push_completed_computation_bulk 3 2 exSt).remaining_work_for_query_subtrees_.getD 0 0
      = sub64 16 3 ∧
    sub64 16 3 ≤ 16 := by
  have h := push_completed_wraps exSt exSt (0, 0, 10) 3 2 0
  exact ⟨by simpa [exSt] using h.2.2.1 (by decide) (by decide),
         h.2.2.2.2 16 3 (by norm_num [W64]) (by norm_num [W64])⟩

/-! ### C9: lookup misses are fatal, matches update exactly one slot -/

theorem findIdx?_none_of_all {α : Type} (p : α → Bool) (l : List α)
    (h : ∀ x ∈ l, p x = false) : l.findIdx? p = none := by
  induction l with
  | nil => rfl
  | cons x xs ih =>
    rw [List.findIdx?_cons]
    rw [h x (by simp)]
    simp [ih fun y hy => h y (by simp [hy])]

theorem findIdx?_first {α : Type} (p : α → Bool) (l : List α) (i : Nat) (d : α)
    (hi : i < l.length) (hp : p (l.getD i d) = true) :
    ∃ j, j ≤ i ∧ l.findIdx? p = some j ∧ j < l.length ∧ p (l.getD j d) = true := by
  induction l generalizing i with
  | nil => simp at hi
  | cons x xs ih =>
    rw [List.findIdx?_cons]
    cases hx : p x with
    | true => exact ⟨0, Nat.zero_le i, by simp, by simp, by simpa [List.getD] using hx⟩
    | false =>
      cases i with
      | zero => rw [show (x :: xs).getD 0 d = x from rfl] at hp; rw [hx] at hp; cases hp
      | succ i2 =>
        obtain ⟨j, hj1, hj2, hj3, hj4⟩ :=
          ih i2 (by simpa using hi) (by simpa [List.getD] using hp)
        exact ⟨j + 1, by omega, by simp [hj2], by simpa using hj3,
          by simpa [List.getD] using hj4⟩

/-- C9: calling `UnlockQuerySubtree` or the targeted
`push_completed_computation` with an id whose (begin, count) matches no live
subtree is fatal: the source indexes the arrays at -1, an out-of-bounds
access modelled as the fault result `none`.  Under the precondition that the
id matches a live subtree, the not-found branch of `FindQuerySubtreeIndex_`
is unreachable (the lookup returns an index, at the first matching slot) and
each operation updates exactly that slot: the unlock clears its lock bit, the
completion decrements its remaining work. -/
theorem lookup_miss_fatal (st : TaskQueue) (qid : Triple) (rc q : Nat) :
    ((∀ t ∈ st.query_subtrees_, ¬(qid.2.1 = t.begin ∧ qid.2.2 = t.count)) →
        UnlockQuerySubtree qid st = none ∧
        push_completed_computation qid rc q st = none) ∧
    (∀ i, i < st.query_subtrees_.length →
        qid.2.1 = (st.query_subtrees_.getD i default).begin →
        qid.2.2 = (st.query_subtrees_.getD i default).count →
        ∃ j, j ≤ i ∧ FindQuerySubtreeIndex_ qid st = some j ∧
          j < st.query_subtrees_.length ∧
          qid.2.1 = (st.query_subtrees_.getD j default).begin ∧
          qid.2.2 = (st.query_subtrees_.getD j default).count ∧
          UnlockQuerySubtree qid st =
            some { st with query_subtree_locks_ := st.query_subtree_locks_.set j false } ∧
          push_completed_computation qid rc q st =
            some { st with
                   remaining_global_computation_ :=
                     sub64 st.remaining_global_computation_ q,
                   remaining_local_computation_ :=
                     sub64 st.remaining_local_computation_ q,
                   remaining_work_for_query_subtrees_ :=
                     st.remaining_work_for_query_subtrees_.set j
                       (sub64 (st.remaining_work_for_query_subtrees_.getD j 0) rc) }) := by
  constructor
  · intro hmiss
    have hf : FindQuerySubtreeIndex_ qid st = none := by
      unfold FindQuerySubtreeIndex_
      refine findIdx?_none_of_all _ _ ?_
      intro x hx
      have := hmiss x hx
      simp only [Bool.and_eq_false_imp]
      by_cases h1 : qid.2.1 = x.begin
      · intro _
        simp only [beq_eq_false_iff_ne, ne_eq]
        intro h2
        exact this ⟨h1, h2⟩
      · intro hb
        exact absurd (by simpa using hb) h1
    constructor
    · unfold UnlockQuerySubtree
      rw [hf]
    · unfold push_completed_computation
      simp only
      rw [show FindQuerySubtreeIndex_ qid
            { st with
              remaining_global_computation_ := sub64 st.remaining_global_computation_ q,
              remaining_local_computation_ := sub64 st.remaining_local_computation_ q }
          = FindQuerySubtreeIndex_ qid st from rfl, hf]
  · intro i hi hb hc
    obtain ⟨j, hj1, hj2, hj3, hj4⟩ :=
      findIdx?_first (fun t => qid.2.1 == t.begin && qid.2.2 == t.count)
        st.query_subtrees_ i default hi (by simp [hb, hc])
    have hfj : FindQuerySubtreeIndex_ qid st = some j := hj2
    refine ⟨j, hj1, hfj, hj3, ?_, ?_, ?_, ?_⟩
    · exact (by simpa using (Bool.and_eq_true_iff.mp hj4).1)
    · exact (by simpa using (Bool.and_eq_true_iff.mp hj4).2)
    · unfold UnlockQuerySubtree
      rw [hfj]
    · unfold push_completed_computation
      simp only
      rw [show FindQuerySubtreeIndex_ qid
            { st with
              remaining_global_computation_ := sub64 st.remaining_global_computation_ q,
              remaining_local_computation_ := sub64 st.remaining_local_computation_ q }
          = FindQuerySubtreeIndex_ qid st from rfl, hfj]

/-- Witness for C9 at the concrete state: the id (0, 99, 99) matches no live
subtree and both operations fault; the id (0, 10, 6) matches slot 1 and both
operations update exactly that slot. -/
theorem lookup_miss_fatal_witness :
    (UnlockQuerySubtree (0, 99, 99) exSt = none ∧
     push_completed_computation (0, 99, 99) 4 2 exSt = none) ∧
    UnlockQuerySubtree (0, 10, 6) exSt =
      some { exSt with query_subtree_locks_ := exSt.query_subtree_locks_.set 1 false } := by
  constructor
  · exact (lookup_miss_fatal exSt (0, 99, 99) 4 2).1 (by decide)
  · obtain ⟨j, hj1, hj2, hj3, hj4, hj5, hj6, hj7⟩ :=
      (lookup_miss_fatal exSt (0, 10, 6) 4 2).2 1 (by decide) (by decide) (by decide)
    have hj0 : j = 1 := by
      interval_cases j
      · exact absurd hj4 (by decide)
      · rfl
    rw [hj0] at hj6
    exact hj6

/-! ### C8: a double cache miss is not skipped -/

theorem heapPush_length (t : Task) (l : List Task) :
    (heapPush t l).length = l.length + 1 := by
  induction l with
  | nil => rfl
  | cons x xs ih =>
    unfold heapPush
    by_cases h : x.priority < t.priority
    · simp [h]
    · simp [h, ih]

theorem foldlBind_none {α : Type} (f : TaskQueue → α → Option TaskQueue)
    (l : List α) :
    l.foldl (fun os a => os.bind fun s => f s a) none = none := by
  induction l with
  | nil => rfl
  | cons x xs ih => simpa using ih

theorem genArrival_eq (prio : Tree → Tree → Int) (exch : Exchange)
    (st : TaskQueue) (arr : Nat × Nat × Nat × Nat) :
    genArrival prio exch st arr =
      (List.range st.query_subtrees_.length).foldl
        (fun s j => genStep prio (arrRank exch arr) arr.2.1 arr.2.2.1 arr.2.2.2
          (refNodeOf exch arr) j s) st := rfl

theorem genStepF_mem (prio : Tree → Tree → Int) (rr b c cid : Nat)
    (rn : Option Tree) (j : Nat) (st : TaskQueue)
    (hmem : (rr, b, b + c) ∈ st.assigned_work_.getD j []) :
    genStepF prio rr b c cid rn j st = some st := by
  unfold genStepF diiInsert
  simp only
  rw [if_pos hmem]
  rfl

theorem genStepF_fault (prio : Tree → Tree → Int) (rr b c cid : Nat)
    (j : Nat) (st : TaskQueue)
    (hmem : (rr, b, b + c) ∉ st.assigned_work_.getD j []) :
    genStepF prio rr b c cid none j st = none := by
  unfold genStepF diiInsert
  simp only
  rw [if_neg hmem]
  rfl

theorem genStepF_some_node (prio : Tree → Tree → Int) (rr b c cid : Nat)
    (nd : Tree) (j : Nat) (st : TaskQueue) :
    genStepF prio rr b c cid (some nd) j st
      = some (genStep prio rr b c cid (some nd) j st) := by
  unfold genStepF genStep
  simp only
  split
  · rfl
  · rfl

theorem genArrivalF_eq (prio : Tree → Tree → Int) (exch : Exchange)
    (st : TaskQueue) (arr : Nat × Nat × Nat × Nat) :
    genArrivalF prio exch st arr =
      (List.range st.query_subtrees_.length).foldl
        (fun os j => os.bind fun s =>
          genStepF prio (arrRank exch arr) arr.2.1 arr.2.2.1 arr.2.2.2
            (refNodeOf exch arr) j s)
        (some st) := rfl

theorem genArrivalF_some (prio : Tree → Tree → Int) (exch : Exchange)
    (st : TaskQueue) (arr : Nat × Nat × Nat × Nat) (nd : Tree)
    (hnd : refNodeOf exch arr = some nd) :
    genArrivalF prio exch st arr = some (genArrival prio exch st arr) := by
  rw [genArrivalF_eq, genArrival_eq, hnd]
  have hgen : ∀ (idxs : List Nat) (s : TaskQueue),
      idxs.foldl
        (fun os j => os.bind fun s2 =>
          genStepF prio (arrRank exch arr) arr.2.1 arr.2.2.1 arr.2.2.2 (some nd) j s2)
        (some s)
      = some (idxs.foldl
          (fun s2 j => genStep prio (arrRank exch arr) arr.2.1 arr.2.2.1 arr.2.2.2
            (some nd) j s2) s) := by
    intro idxs
    induction idxs with
    | nil => intro s; rfl
    | cons j0 rest ih =>
      intro s
      simp only [List.foldl_cons]
      rw [show (some s).bind (fun s2 =>
          genStepF prio (arrRank exch arr) arr.2.1 arr.2.2.1 arr.2.2.2 (some nd) j0 s2)
        = genStepF prio (arrRank exch arr) arr.2.1 arr.2.2.1 arr.2.2.2 (some nd) j0 s
        from rfl]
      rw [genStepF_some_node]
      exact ih _
  exact hgen _ st

theorem genArrivalF_fault (prio : Tree → Tree → Int) (exch : Exchange)
    (st : TaskQueue) (arr : Nat × Nat × Nat × Nat)
    (hnd : refNodeOf exch arr = none)
    (hex : ∃ j, j < st.query_subtrees_.length ∧
      arrTriple exch arr ∉ st.assigned_work_.getD j []) :
    genArrivalF prio exch st arr = none := by
  rw [genArrivalF_eq, hnd]
  obtain ⟨j0, hj0, hmem0⟩ := hex
  have hgen : ∀ (idxs : List Nat),
      (∃ j, j ∈ idxs ∧ arrTriple exch arr ∉ st.assigned_work_.getD j []) →
      idxs.foldl
        (fun os j => os.bind fun s2 =>
          genStepF prio (arrRank exch arr) arr.2.1 arr.2.2.1 arr.2.2.2 none j s2)
        (some st) = none := by
    intro idxs
    induction idxs with
    | nil =>
      intro h
      obtain ⟨j, hj, _⟩ := h
      simp at hj
    | cons k rest ih =>
      intro h
      simp only [List.foldl_cons]
      rw [show (some st).bind (fun s2 =>
          genStepF prio (arrRank exch arr) arr.2.1 arr.2.2.1 arr.2.2.2 none k s2)
        = genStepF prio (arrRank exch arr) arr.2.1 arr.2.2.1 arr.2.2.2 none k st
        from rfl]
      by_cases hmk : arrTriple exch arr ∈ st.assigned_work_.getD k []
      · rw [genStepF_mem _ _ _ _ _ _ _ _ hmk]
        refine ih ?_
        obtain ⟨j, hj, hmj⟩ := h
        rcases List.mem_cons.mp hj with hj | hj
        · subst hj
          exact absurd hmk hmj
        · exact ⟨j, hj, hmj⟩
      · rw [genStepF_fault _ _ _ _ _ _ _ hmk]
        exact foldlBind_none _ _
  exact hgen _ ⟨j0, List.mem_range.mpr hj0, hmem0⟩

theorem genArrivalF_skip (prio : Tree → Tree → Int) (exch : Exchange)
    (st : TaskQueue) (arr : Nat × Nat × Nat × Nat)
    (hall : ∀ j, j < st.query_subtrees_.length →
      arrTriple exch arr ∈ st.assigned_work_.getD j []) :
    genArrivalF prio exch st arr = some st := by
  rw [genArrivalF_eq]
  have hgen : ∀ (idxs : List Nat),
      (∀ j, j ∈ idxs → arrTriple exch arr ∈ st.assigned_work_.getD j []) →
      idxs.foldl
        (fun os j => os.bind fun s2 =>
          genStepF prio (arrRank exch arr) arr.2.1 arr.2.2.1 arr.2.2.2
            (refNodeOf exch arr) j s2)
        (some st) = some st := by
    intro idxs
    induction idxs with
    | nil => intro _; rfl
    | cons k rest ih =>
      intro h
      simp only [List.foldl_cons]
      rw [show (some st).bind (fun s2 =>
          genStepF prio (arrRank exch arr) arr.2.1 arr.2.2.1 arr.2.2.2
            (refNodeOf exch arr) k s2)
        = genStepF prio (arrRank exch arr) arr.2.1 arr.2.2.1 arr.2.2.2
            (refNodeOf exch arr) k st
        from rfl]
      rw [genStepF_mem _ _ _ _ _ _ _ _ (h k (List.mem_cons_self _ _))]
      exact ih fun j hj => h j (List.mem_cons_of_mem _ hj)
  exact hgen _ fun j hj => hall j (List.mem_range.mp hj)

/-- C8 counterexample: on the double-miss tuple (1, 0, 10, 5) — both
`FindSubTable` and the `FindByBeginCount` fallback resolve nothing — the call
is not a silent skip: slot 0 first-inserts the coverage triple and the push
dereferences the null reference node, killing the program before any task or
lock, so no final state exists in which the remaining tuples were
processed. -/
theorem generate_tasks_skip_counterexample :
    genArrivalF exPrio exExchMiss exSt (1, 0, 10, 5) = none ∧
    GenerateTasksF exPrio exExchMiss [(1, 0, 10, 5), (1, 10, 6, 6)] exSt = none := by
  constructor <;> rfl

/-- C8 amended: on a tuple for which `FindSubTable` returns nothing and
`FindByBeginCount` also resolves no node, `GenerateTasks` does not silently
skip the tuple.  It runs the per-subtree loop with a null reference node: at
the first query subtree whose interval set first-inserts the coverage
triple, the program faults dereferencing the null node while computing the
priority — before any task is enqueued or any cache lock is taken — and the
remaining tuples of the call are never processed.  Only when every live
subtree's insert is refused (the triple is already covered everywhere) does
the call continue past the tuple, with no tasks and no locks for it.  With a
resolved reference node the fault-accurate call agrees with
`GenerateTasks`. -/
theorem generate_tasks_no_skip (prio : Tree → Tree → Int) (exch : Exchange)
    (st : TaskQueue) (r b c cid : Nat) (rest : List (Nat × Nat × Nat × Nat))
    (h1 : exch.findSubTable cid = none)
    (h2 : exch.findByBeginCount b c = none) :
    ((∃ j, j < st.query_subtrees_.length ∧
        (exch.localRank, b, b + c) ∉ st.assigned_work_.getD j []) →
      genArrivalF prio exch st (r, b, c, cid) = none ∧
      GenerateTasksF prio exch ((r, b, c, cid) :: rest) st = none) ∧
    ((∀ j, j < st.query_subtrees_.length →
        (exch.localRank, b, b + c) ∈ st.assigned_work_.getD j []) →
      genArrivalF prio exch st (r, b, c, cid) = some st) ∧
    (∀ (j : Nat) (s : TaskQueue),
      (exch.localRank, b, b + c) ∉ s.assigned_work_.getD j [] →
      genStepF prio exch.localRank b c cid none j s = none) ∧
    (∀ (arr : Nat × Nat × Nat × Nat) (nd : Tree),
      refNodeOf exch arr = some nd →
      genArrivalF prio exch st arr = some (genArrival prio exch st arr)) := by
  have hnd : refNodeOf exch (r, b, c, cid) = none := by
    unfold refNodeOf
    rw [show (r, b, c, cid).2.2.2 = cid from rfl, h1]
    exact h2
  have htr : arrTriple exch (r, b, c, cid) = (exch.localRank, b, b + c) := by
    unfold arrTriple arrRank
    rw [show (r, b, c, cid).2.2.2 = cid from rfl, h1]
  refine ⟨?_, ?_, ?_, ?_⟩
  · intro hex
    have hfault := genArrivalF_fault prio exch st (r, b, c, cid) hnd
      (by rw [htr]; exact hex)
    refine ⟨hfault, ?_⟩
    unfold GenerateTasksF
    simp only [List.foldl_cons]
    rw [show (some st).bind (fun s => genArrivalF prio exch s (r, b, c, cid))
        = genArrivalF prio exch st (r, b, c, cid) from rfl, hfault]
    exact foldlBind_none _ _
  · intro hall
    exact genArrivalF_skip prio exch st (r, b, c, cid)
      (by rw [htr]; exact hall)
  · intro j s hmem
    exact genStepF_fault prio exch.localRank b c cid j s hmem
  · intro arr nd hnd2
    exact genArrivalF_some prio exch st arr nd hnd2

/-- Witness for `generate_tasks_no_skip` at the mixed exchange: tuple
(1, 0, 10, 5) double-misses and slot 0 first-inserts, so the call faults and
the trailing tuple is never processed; the per-step fault is exercised at
slot 0; the cached tuple (1, 0, 50, 7) agrees with the defined-behavior
`genArrival`. -/
theorem generate_tasks_no_skip_witness :
    (genArrivalF exPrio exExchMix exSt (1, 0, 10, 5) = none ∧
     GenerateTasksF exPrio exExchMix [(1, 0, 10, 5), (2, 2, 2, 2)] exSt = none) ∧
    genStepF exPrio exExchMix.localRank 0 10 5 none 0 exSt = none ∧
    genArrivalF exPrio exExchMix exSt (1, 0, 50, 7)
      = some (genArrival exPrio exExchMix exSt (1, 0, 50, 7)) := by
  have h := generate_tasks_no_skip exPrio exExchMix exSt 1 0 10 5 [(2, 2, 2, 2)] rfl rfl
  exact ⟨h.1 ⟨0, by decide, by decide⟩,
    h.2.2.1 0 exSt (by decide),
    h.2.2.2 (1, 0, 50, 7) (Tree.leaf 0 50) rfl⟩

/-! ### C6: the five parallel arrays stay aligned -/

theorem foldl_preserve {α : Type} (P : TaskQueue → Prop) (f : TaskQueue → α → TaskQueue)
    (h : ∀ s a, P s → P (f s a)) :
    ∀ (l : List α) (s : TaskQueue), P s → P (l.foldl f s) := by
  intro l
  induction l with
  | nil => intro s hs; exact hs
  | cons x xs ih => intro s hs; exact ih _ (h s x hs)

theorem genStep_frame (prio : Tree → Tree → Int) (rr b c cid : Nat)
    (rn : Option Tree) (j : Nat) (st : TaskQueue) :
    (genStep prio rr b c cid rn j st).query_subtrees_ = st.query_subtrees_ ∧
    (genStep prio rr b c cid rn j st).remaining_work_for_query_subtrees_
      = st.remaining_work_for_query_subtrees_ ∧
    (genStep prio rr b c cid rn j st).query_subtree_locks_ = st.query_subtree_locks_ ∧
    (genStep prio rr b c cid rn j st).assigned_work_.length = st.assigned_work_.length ∧
    (genStep prio rr b c cid rn j st).tasks_.length = st.tasks_.length ∧
    (genStep prio rr b c cid rn j st).split_subtree_after_unlocking_
      = st.split_subtree_after_unlocking_ ∧
    (genStep prio rr b c cid rn j st).remaining_global_computation_
      = st.remaining_global_computation_ ∧
    (genStep prio rr b c cid rn j st).remaining_local_computation_
      = st.remaining_local_computation_ := by
  unfold genStep
  simp only
  split
  · refine ⟨rfl, rfl, rfl, ?_, ?_, rfl, rfl, rfl⟩
    · simp [LockCache, PushTask_]
    · simp [LockCache, PushTask_]
  · exact ⟨rfl, rfl, rfl, rfl, rfl, rfl, rfl, rfl⟩

theorem genStep_aligned (prio : Tree → Tree → Int) (rr b c cid : Nat)
    (rn : Option Tree) (j : Nat) (st : TaskQueue) (hA : Aligned st) :
    Aligned (genStep prio rr b c cid rn j st) := by
  have hf := genStep_frame prio rr b c cid rn j st
  unfold Aligned at hA ⊢
  rw [hf.1, hf.2.1, hf.2.2.1, hf.2.2.2.1, hf.2.2.2.2.1]
  exact hA

theorem genArrival_aligned (prio : Tree → Tree → Int) (exch : Exchange)
    (st : TaskQueue) (arr : Nat × Nat × Nat × Nat) (hA : Aligned st) :
    Aligned (genArrival prio exch st arr) := by
  unfold genArrival
  exact foldl_preserve Aligned _
    (fun s a hs => genStep_aligned _ _ _ _ _ _ _ s hs) _ st hA

theorem GenerateTasks_aligned (prio : Tree → Tree → Int) (exch : Exchange)
    (arrivals : List (Nat × Nat × Nat × Nat)) (st : TaskQueue) (hA : Aligned st) :
    Aligned (GenerateTasks prio exch arrivals st) := by
  unfold GenerateTasks
  exact foldl_preserve Aligned _
    (fun s a hs => genArrival_aligned _ _ s a hs) _ st hA

theorem DequeueTaskAt_aligned (i : Nat) (out : Task × Nat) (lk : Bool)
    (st : TaskQueue) (hA : Aligned st) :
    Aligned ((DequeueTaskAt i out lk st).2) := by
  unfold DequeueTaskAt
  split
  · exact hA
  · split
    · exact hA
    · unfold Aligned at hA ⊢
      simp only [List.length_set]
      exact hA

theorem compact_aligned (p : Nat) (st : TaskQueue) (hA : Aligned st) :
    Aligned (compact p st) := by
  unfold Aligned at hA ⊢
  unfold compact
  simp only [List.length_dropLast, List.length_set]
  omega

theorem DequeueLoop_aligned (lockIn : Bool) (out : Task × Nat) :
    ∀ (st : TaskQueue) (probe : Nat), Aligned st →
      Aligned ((DequeueLoop lockIn out st probe).2) := by
  intro st probe
  induction st, probe using DequeueLoop.induct lockIn out with
  | case1 st probe hlt t rest hm hlock ih =>
    intro hA
    rw [DequeueLoop, dif_pos hlt, hm]
    simp only [hlock, if_true]
    exact ih hA
  | case2 st probe hlt t rest hm hlock =>
    intro hA
    rw [DequeueLoop, dif_pos hlt, hm]
    simp only [hlock, if_false, Bool.false_eq_true]
    unfold Aligned at hA ⊢
    simp only [List.length_set]
    exact hA
  | case3 st probe hlt hm hrw ih =>
    intro hA
    rw [DequeueLoop, dif_pos hlt, hm, if_pos hrw]
    exact ih (compact_aligned _ _ hA)
  | case4 st probe hlt hm hrw ih =>
    intro hA
    rw [DequeueLoop, dif_pos hlt, hm, if_neg hrw]
    exact ih hA
  | case5 st probe hlt =>
    intro hA
    rw [DequeueLoop, dif_neg hlt]
    exact hA

theorem splitArrays_aligned (i : Nat) (st : TaskQueue) (hA : Aligned st) :
    Aligned (splitArrays i st).2 := by
  unfold Aligned at hA ⊢
  unfold splitArrays
  simp only [List.length_append, List.length_set, List.length_cons, List.length_nil]
  omega

theorem PushTask_aligned (prio : Tree → Tree → Int) (i rr : Nat) (rn : Option Tree)
    (c : Nat) (st : TaskQueue) (hA : Aligned st) :
    Aligned (PushTask_ prio i rr rn c st) := by
  unfold Aligned at hA ⊢
  unfold PushTask_
  simp only [List.length_set]
  exact hA

theorem LockCache_aligned (c n : Nat) (st : TaskQueue) (hA : Aligned st) :
    Aligned (LockCache c n st) := by
  unfold Aligned at hA ⊢
  exact hA

theorem reEmitTask_aligned (prio : Tree → Tree → Int) (pq : Tree) (li ri : Nat)
    (st : TaskQueue) (t : Task) (hA : Aligned st) :
    Aligned (reEmitTask prio pq li ri st t) := by
  unfold reEmitTask
  cases t.refNode with
  | none =>
    exact LockCache_aligned _ _ _
      (PushTask_aligned _ _ _ _ _ _ (PushTask_aligned _ _ _ _ _ _ hA))
  | some n =>
    simp only
    by_cases hc : (!n.isLeaf && pq == n) = true
    · rw [if_pos hc]
      exact LockCache_aligned _ _ _
        (PushTask_aligned _ _ _ _ _ _ (PushTask_aligned _ _ _ _ _ _
          (PushTask_aligned _ _ _ _ _ _ (PushTask_aligned _ _ _ _ _ _ hA))))
    · rw [if_neg hc]
      exact LockCache_aligned _ _ _
        (PushTask_aligned _ _ _ _ _ _ (PushTask_aligned _ _ _ _ _ _ hA))

theorem split_subtree_aligned (prio : Tree → Tree → Int) (i : Nat)
    (st : TaskQueue) (hA : Aligned st) :
    Aligned (split_subtree_ prio i st) := by
  unfold split_subtree_
  simp only
  exact foldl_preserve Aligned _
    (fun s a hs => reEmitTask_aligned _ _ _ _ s a hs) _ _
    (splitArrays_aligned i st hA)

theorem Redistribute_aligned (prio : Tree → Tree → Int) (st : TaskQueue)
    (hA : Aligned st) : Aligned (RedistributeAmongCores prio st) := by
  unfold RedistributeAmongCores
  by_cases hs : st.split_subtree_after_unlocking_ = true
  · rw [if_pos hs]
    simp only
    cases hsel : (selectSplit st).2 with
    | none => exact hA
    | some i =>
      have := split_subtree_aligned prio i st hA
      unfold Aligned at this ⊢
      exact this
  · rw [if_neg hs]
    exact hA

/-- C6: the five parallel arrays QuerySubtrees, AssignedWork, RemainingWork,
SubtreeLocks and Heap always have the same length: it holds after `Init`, and
it is preserved by `GenerateTasks`, by both forms of `DequeueTask`, by the
swap-and-pop compaction, by a split, and by `RedistributeAmongCores`. -/
theorem parallel_arrays_aligned (frontier : List Tree) (qc rc : List Nat) (lq : Nat)
    (prio : Tree → Tree → Int) (exch : Exchange)
    (arrivals : List (Nat × Nat × Nat × Nat)) (i p : Nat) (out : Task × Nat)
    (lk : Bool) (st : TaskQueue) :
    Aligned (Init frontier qc rc lq) ∧
    (Aligned st → Aligned (GenerateTasks prio exch arrivals st)) ∧
    (Aligned st → Aligned ((DequeueTaskAt i out lk st).2)) ∧
    (Aligned st → Aligned ((DequeueTask out lk st).2)) ∧
    (Aligned st → Aligned (compact p st)) ∧
    (Aligned st → Aligned (split_subtree_ prio i st)) ∧
    (Aligned st → Aligned (RedistributeAmongCores prio st)) := by
  refine ⟨?_, ?_, ?_, ?_, ?_, ?_, ?_⟩
  · unfold Aligned Init
    simp
  · exact GenerateTasks_aligned prio exch arrivals st
  · exact DequeueTaskAt_aligned i out lk st
  · exact DequeueLoop_aligned lk out st 0
  · exact compact_aligned p st
  · exact split_subtree_aligned prio i st
  · exact Redistribute_aligned prio st

/-- Witness for `parallel_arrays_aligned` at the concrete state. -/
theorem parallel_arrays_aligned_witness :
    Aligned (Init [exTree0] [10] [16] 10) ∧
    Aligned ((DequeueTask (default, 0) true exSt).2) := by
  have h := parallel_arrays_aligned [exTree0] [10] [16] 10 exPrio exExchMiss [] 0 0
    (default, 0) true exSt
  exact ⟨h.1, h.2.2.2.1 (by constructor <;> simp [exSt])⟩

/-! ### The selection loop of RedistributeAmongCores -/

theorem selectStep_eq (st : TaskQueue) (acc : Nat × Option Nat) (i : Nat) :
    selectStep st acc i =
      if eligible st i ∧ acc.1 < countOf st i then (countOf st i, some i) else acc := by
  unfold selectStep
  refine if_congr ?_ rfl rfl
  unfold eligible countOf
  tauto

theorem selectLoop_inv (st : TaskQueue) (n : Nat) :
    (∀ i, i < n → eligible st i →
        countOf st i ≤ ((List.range n).foldl (selectStep st) (0, none)).1) ∧
    (((List.range n).foldl (selectStep st) (0, none)).2 = none →
        ((List.range n).foldl (selectStep st) (0, none)).1 = 0) ∧
    (∀ j, ((List.range n).foldl (selectStep st) (0, none)).2 = some j →
        j < n ∧ eligible st j ∧
        countOf st j = ((List.range n).foldl (selectStep st) (0, none)).1 ∧
        0 < ((List.range n).foldl (selectStep st) (0, none)).1 ∧
        (∀ i, i < j → eligible st i →
          countOf st i < ((List.range n).foldl (selectStep st) (0, none)).1)) := by
  induction n with
  | zero => simp
  | succ n ih =>
    obtain ⟨h1, h2, h3⟩ := ih
    rw [List.range_succ, List.foldl_append, List.foldl_cons, List.foldl_nil, selectStep_eq]
    by_cases hc : eligible st n ∧
        ((List.range n).foldl (selectStep st) (0, none)).1 < countOf st n
    · rw [if_pos hc]
      refine ⟨?_, ?_, ?_⟩
      · intro i hi he
        rcases Nat.lt_succ_iff_lt_or_eq.mp hi with hi | hi
        · exact le_trans (h1 i hi he) (le_of_lt hc.2)
        · subst hi
          exact le_refl _
      · intro hnone
        simp at hnone
      · intro j hj
        have hjn : j = n := by
          simpa using hj.symm
        subst hjn
        refine ⟨Nat.lt_succ_self _, hc.1, rfl, ?_, ?_⟩
        · exact Nat.lt_of_le_of_lt (Nat.zero_le _) hc.2
        · intro i hij he
          exact Nat.lt_of_le_of_lt (h1 i hij he) hc.2
    · rw [if_neg hc]
      refine ⟨?_, h2, ?_⟩
      · intro i hi he
        rcases Nat.lt_succ_iff_lt_or_eq.mp hi with hi | hi
        · exact h1 i hi he
        · subst hi
          by_cases he2 : ((List.range i).foldl (selectStep st) (0, none)).1 < countOf st i
          · exact absurd ⟨he, he2⟩ hc
          · omega
      · intro j hj
        obtain ⟨hj1, hj2, hj3, hj4, hj5⟩ := h3 j hj
        exact ⟨Nat.lt_succ_of_lt hj1, hj2, hj3, hj4, hj5⟩

/-! ### C5: RedistributeAmongCores selects the largest eligible subtree -/

/-- C5: when the split flag is set, `RedistributeAmongCores` selects among
the live query subtrees exactly the unlocked, non-leaf, non-empty-heap slot
of largest point count (ties broken by the lowest index, provided some
eligible slot has a positive count), splits it, and clears the flag; when no
slot is eligible it clears the flag and changes nothing else; a slot
returned by the selection is never locked, never a leaf, and never has an
empty heap. -/
theorem redistribute_selects_largest (prio : Tree → Tree → Int) (st : TaskQueue)
    (hflag : st.split_subtree_after_unlocking_ = true) :
    ((∀ i, i < st.query_subtrees_.length → ¬ eligible st i) →
        RedistributeAmongCores prio st
          = { st with split_subtree_after_unlocking_ := false }) ∧
    ((∃ j0, j0 < st.query_subtrees_.length ∧ eligible st j0 ∧ 0 < countOf st j0) →
        ∃ i, (selectSplit st).2 = some i ∧
          i < st.query_subtrees_.length ∧ eligible st i ∧
          (∀ j, j < st.query_subtrees_.length → eligible st j →
            countOf st j ≤ countOf st i) ∧
          (∀ j, j < i → eligible st j → countOf st j < countOf st i) ∧
          RedistributeAmongCores prio st
            = { split_subtree_ prio i st with split_subtree_after_unlocking_ := false }) ∧
    (∀ i, (selectSplit st).2 = some i → eligible st i) := by
  obtain ⟨h1, h2, h3⟩ := selectLoop_inv st st.query_subtrees_.length
  have hss : selectSplit st
      = (List.range st.query_subtrees_.length).foldl (selectStep st) (0, none) := rfl
  refine ⟨?_, ?_, ?_⟩
  · intro hnone
    unfold RedistributeAmongCores
    rw [if_pos hflag]
    simp only
    cases hsel : (selectSplit st).2 with
    | none => rfl
    | some j =>
      obtain ⟨hj1, hj2, _⟩ := h3 j (by rw [← hss]; exact hsel)
      exact absurd hj2 (hnone j hj1)
  · intro hex
    obtain ⟨j0, hj0n, hj0e, hj0c⟩ := hex
    cases hsel : (selectSplit st).2 with
    | none =>
      have hz := h2 (by rw [← hss]; exact hsel)
      have := h1 j0 hj0n hj0e
      rw [← hss] at this hz
      omega
    | some i =>
      obtain ⟨hi1, hi2, hi3, hi4, hi5⟩ := h3 i (by rw [← hss]; exact hsel)
      rw [← hss] at hi3 hi5
      refine ⟨i, rfl, hi1, hi2, ?_, ?_, ?_⟩
      · intro j hjn hje
        have := h1 j hjn hje
        rw [← hss] at this
        omega
      · intro j hji hje
        have := hi5 j hji hje
        omega
      · unfold RedistributeAmongCores
        rw [if_pos hflag]
        simp only
        rw [hsel]
  · intro i hsel
    exact (h3 i (by rw [← hss]; exact hsel)).2.1

/-- Witness for `redistribute_selects_largest`: with no eligible slot the
flag is cleared and nothing else changes; with slot 0 eligible (non-leaf,
unlocked, non-empty heap, 10 points) it is selected and split. -/
theorem redistribute_selects_largest_witness :
    RedistributeAmongCores exPrio { exSt with split_subtree_after_unlocking_ := true }
      = { exSt with split_subtree_after_unlocking_ := false } ∧
    RedistributeAmongCores exPrio
        { exSt with
          tasks_ := [[exTask0], []],
          query_subtree_locks_ := [false, false],
          split_subtree_after_unlocking_ := true }
      = { split_subtree_ exPrio 0
            { exSt with
              tasks_ := [[exTask0], []],
              query_subtree_locks_ := [false, false],
              split_subtree_after_unlocking_ := true } with
          split_subtree_after_unlocking_ := false } := by
  constructor
  · refine (redistribute_selects_largest exPrio
      { exSt with split_subtree_after_unlocking_ := true } rfl).1 ?_
    intro i hi he
    have hi2 : i < 2 := by simpa [exSt] using hi
    interval_cases i <;> exact absurd he (by decide)
  · have h := (redistribute_selects_largest exPrio
      { exSt with
        tasks_ := [[exTask0], []],
        query_subtree_locks_ := [false, false],
        split_subtree_after_unlocking_ := true } rfl).2.1
      ⟨0, by simp [exSt], ⟨rfl, rfl, by simp [exSt, exTask0]⟩, by norm_num [countOf, exSt, exTree0, Tree.count]⟩
    obtain ⟨i, hsel, _, _, _, _, hred⟩ := h
    have hi0 : i = 0 := by
      have : (selectSplit
          { exSt with
            tasks_ := [[exTask0], []],
            query_subtree_locks_ := [false, false],
            split_subtree_after_unlocking_ := true }).2 = some 0 := by decide
      rw [this] at hsel
      simpa using hsel.symm
    rw [hi0] at hred
    exact hred

/-! ### C4: NumRemainingTasks equals the total heap size -/

theorem sum_map_set {α : Type} (f : α → Nat) (l : List α) (i : Nat) (x d : α)
    (h : i < l.length) :
    ((l.set i x).map f).sum + f (l.getD i d) = (l.map f).sum + f x := by
  induction l generalizing i with
  | nil => simp at h
  | cons y ys ih =>
    cases i with
    | zero =>
      simp [List.getD]
      omega
    | succ j =>
      have := ih j (by simpa using h)
      simp [List.getD] at this ⊢
      omega

theorem sum_map_dropLast {α : Type} (f : α → Nat) (l : List α) (d : α) (h : l ≠ []) :
    (l.dropLast.map f).sum + f (l.getD (l.length - 1) d) = (l.map f).sum := by
  induction l with
  | nil => exact absurd rfl h
  | cons y ys ih =>
    cases ys with
    | nil => simp [List.getD]
    | cons z zs =>
      have ihh := ih (by simp)
      have hidx : (y :: z :: zs).getD ((y :: z :: zs).length - 1) d
          = (z :: zs).getD ((z :: zs).length - 1) d := by
        show (y :: z :: zs).getD (zs.length + 1) d = (z :: zs).getD zs.length d
        rw [List.getD_cons_succ]
      rw [hidx]
      show (f y + ((z :: zs).dropLast.map f).sum) + _ = f y + ((z :: zs).map f).sum
      omega

theorem sumTasks_compact (p : Nat) (st : TaskQueue) (hp : p < st.tasks_.length)
    (he : st.tasks_.getD p [] = []) :
    sumTasks (compact p st) = sumTasks st := by
  unfold sumTasks compact
  simp only
  have h1 := sum_map_set List.length st.tasks_ p
    (st.tasks_.getD (st.tasks_.length - 1) []) [] hp
  rw [he] at h1
  have hm : st.tasks_.set p (st.tasks_.getD (st.tasks_.length - 1) []) ≠ [] := by
    have : (st.tasks_.set p (st.tasks_.getD (st.tasks_.length - 1) [])).length ≠ 0 := by
      rw [List.length_set]
      omega
    intro hq
    rw [hq] at this
    exact this rfl
  have h2 := sum_map_dropLast List.length
    (st.tasks_.set p (st.tasks_.getD (st.tasks_.length - 1) [])) [] hm
  have h3 : (st.tasks_.set p (st.tasks_.getD (st.tasks_.length - 1) [])).getD
      ((st.tasks_.set p (st.tasks_.getD (st.tasks_.length - 1) [])).length - 1) []
      = st.tasks_.getD (st.tasks_.length - 1) [] := by
    rw [List.length_set]
    by_cases hpe : p = st.tasks_.length - 1
    · subst hpe
      exact getD_set_self _ _ _ _ (by omega)
    · rw [getD_set_ne _ _ _ _ _ hpe]
  rw [h3] at h2
  simp only [List.length_nil, Nat.add_zero] at h1
  rw [h1] at h2
  omega

theorem PushTask_tasks_length (prio : Tree → Tree → Int) (i rr : Nat)
    (rn : Option Tree) (c : Nat) (st : TaskQueue) :
    (PushTask_ prio i rr rn c st).tasks_.length = st.tasks_.length := by
  rw [PushTask_tasks]
  exact List.length_set st.tasks_ i _

theorem PushTask_inv (prio : Tree → Tree → Int) (i rr : Nat) (rn : Option Tree)
    (c : Nat) (st : TaskQueue) (h : i < st.tasks_.length)
    (hI : TaskCountInv st) : TaskCountInv (PushTask_ prio i rr rn c st) := by
  unfold TaskCountInv at hI ⊢
  rw [PushTask_num]
  have hs := sum_map_set List.length st.tasks_ i
    (heapPush (pushedTask prio i rr rn c st) (st.tasks_.getD i [])) [] h
  rw [heapPush_length] at hs
  unfold sumTasks at hI ⊢
  rw [PushTask_tasks]
  omega

theorem LockCache_inv (c n : Nat) (st : TaskQueue) (hI : TaskCountInv st) :
    TaskCountInv (LockCache c n st) := hI

theorem genStep_inv (prio : Tree → Tree → Int) (rr b c cid : Nat)
    (rn : Option Tree) (j : Nat) (st : TaskQueue) (h : j < st.tasks_.length)
    (hI : TaskCountInv st) : TaskCountInv (genStep prio rr b c cid rn j st) := by
  unfold genStep
  simp only
  split
  · exact LockCache_inv _ _ _ (PushTask_inv _ _ _ _ _ _ h hI)
  · exact hI

theorem foldl_preserve_mem {α : Type} (P : TaskQueue → Prop)
    (f : TaskQueue → α → TaskQueue) :
    ∀ (l : List α), (∀ s a, a ∈ l → P s → P (f s a)) →
      ∀ s, P s → P (l.foldl f s) := by
  intro l
  induction l with
  | nil => intro _ s hs; exact hs
  | cons x xs ih =>
    intro h s hs
    exact ih (fun s2 a ha hs2 => h s2 a (by simp [ha]) hs2) _ (h s x (by simp) hs)

theorem genArrival_inv (prio : Tree → Tree → Int) (exch : Exchange)
    (st : TaskQueue) (arr : Nat × Nat × Nat × Nat)
    (hA : st.tasks_.length = st.query_subtrees_.length)
    (hI : TaskCountInv st) : TaskCountInv (genArrival prio exch st arr) := by
  unfold genArrival
  simp only
  refine (foldl_preserve_mem
    (fun s => TaskCountInv s ∧ s.tasks_.length = st.tasks_.length)
    _ (List.range st.query_subtrees_.length) ?_ st ⟨hI, rfl⟩).1
  intro s j hj hs
  have hf := genStep_frame prio
    (match exch.findSubTable arr.2.2.2 with
     | some s => s.rank
     | none => exch.localRank) arr.2.1 arr.2.2.1 arr.2.2.2
    (match exch.findSubTable arr.2.2.2 with
     | some s => some s.tree
     | none => exch.findByBeginCount arr.2.1 arr.2.2.1) j s
  refine ⟨?_, ?_⟩
  · refine genStep_inv _ _ _ _ _ _ _ _ ?_ hs.1
    rw [hs.2, hA]
    exact List.mem_range.mp hj
  · rw [hf.2.2.2.2.1, hs.2]

theorem genArrival_keeps (prio : Tree → Tree → Int) (exch : Exchange)
    (st : TaskQueue) (arr : Nat × Nat × Nat × Nat) :
    (genArrival prio exch st arr).query_subtrees_ = st.query_subtrees_ ∧
    (genArrival prio exch st arr).tasks_.length = st.tasks_.length := by
  unfold genArrival
  refine foldl_preserve
    (fun s => s.query_subtrees_ = st.query_subtrees_ ∧ s.tasks_.length = st.tasks_.length)
    _ ?_ _ st ⟨rfl, rfl⟩
  intro s j hs
  have hf := genStep_frame prio
    (match exch.findSubTable arr.2.2.2 with
     | some s => s.rank
     | none => exch.localRank) arr.2.1 arr.2.2.1 arr.2.2.2
    (match exch.findSubTable arr.2.2.2 with
     | some s => some s.tree
     | none => exch.findByBeginCount arr.2.1 arr.2.2.1) j s
  exact ⟨by rw [hf.1, hs.1], by rw [hf.2.2.2.2.1, hs.2]⟩

theorem GenerateTasks_inv (prio : Tree → Tree → Int) (exch : Exchange)
    (arrivals : List (Nat × Nat × Nat × Nat)) (st : TaskQueue)
    (hA : st.tasks_.length = st.query_subtrees_.length)
    (hI : TaskCountInv st) : TaskCountInv (GenerateTasks prio exch arrivals st) := by
  unfold GenerateTasks
  refine (foldl_preserve
    (fun s => TaskCountInv s ∧ s.tasks_.length = st.tasks_.length ∧
      s.query_subtrees_ = st.query_subtrees_)
    (genArrival prio exch) ?_ arrivals st ⟨hI, rfl, rfl⟩).1
  intro s a hs
  have hk := genArrival_keeps prio exch s a
  refine ⟨genArrival_inv prio exch s a ?_ hs.1, ?_, ?_⟩
  · rw [hs.2.1, hs.2.2, hA]
  · rw [hk.2, hs.2.1]
  · rw [hk.1, hs.2.2]

theorem DequeueTaskAt_inv (i : Nat) (out : Task × Nat) (lk : Bool)
    (st : TaskQueue) (hI : TaskCountInv st) :
    TaskCountInv ((DequeueTaskAt i out lk st).2) := by
  unfold DequeueTaskAt
  split
  · exact hI
  · split
    · exact hI
    · rename_i t rest heq _
      have hlen : i < st.tasks_.length := by
        by_contra hc
        rw [getD_oob _ _ _ (by omega)] at heq
        cases heq
      unfold TaskCountInv at hI ⊢
      unfold sumTasks at hI ⊢
      simp only
      have hs := sum_map_set List.length st.tasks_ i rest [] hlen
      rw [heq] at hs
      simp only [List.length_cons] at hs
      omega

theorem DequeueLoop_inv (lockIn : Bool) (out : Task × Nat) :
    ∀ (st : TaskQueue) (probe : Nat), TaskCountInv st →
      TaskCountInv ((DequeueLoop lockIn out st probe).2) := by
  intro st probe
  induction st, probe using DequeueLoop.induct lockIn out with
  | case1 st probe hlt t rest hm hlock ih =>
    intro hI
    rw [DequeueLoop, dif_pos hlt, hm]
    simp only [hlock, if_true]
    exact ih hI
  | case2 st probe hlt t rest hm hlock =>
    intro hI
    rw [DequeueLoop, dif_pos hlt, hm]
    simp only [hlock, if_false, Bool.false_eq_true]
    unfold TaskCountInv at hI ⊢
    unfold sumTasks at hI ⊢
    simp only
    have hs := sum_map_set List.length st.tasks_ probe rest [] hlt
    rw [hm] at hs
    simp only [List.length_cons] at hs
    omega
  | case3 st probe hlt hm hrw ih =>
    intro hI
    rw [DequeueLoop, dif_pos hlt, hm, if_pos hrw]
    refine ih ?_
    unfold TaskCountInv at hI ⊢
    rw [sumTasks_compact probe st hlt hm]
    exact hI
  | case4 st probe hlt hm hrw ih =>
    intro hI
    rw [DequeueLoop, dif_pos hlt, hm, if_neg hrw]
    exact ih hI
  | case5 st probe hlt =>
    intro hI
    rw [DequeueLoop, dif_neg hlt]
    exact hI

theorem reEmitTask_inv (prio : Tree → Tree → Int) (pq : Tree) (li ri : Nat)
    (st : TaskQueue) (t : Task) (hli : li < st.tasks_.length)
    (hri : ri < st.tasks_.length) (hI : TaskCountInv st) :
    TaskCountInv (reEmitTask prio pq li ri st t) := by
  unfold reEmitTask
  cases t.refNode with
  | none =>
    refine LockCache_inv _ _ _ (PushTask_inv _ _ _ _ _ _ ?_ (PushTask_inv _ _ _ _ _ _ hli hI))
    rw [PushTask_tasks_length]
    exact hri
  | some n =>
    simp only
    by_cases hc : (!n.isLeaf && pq == n) = true
    · rw [if_pos hc]
      refine LockCache_inv _ _ _ (PushTask_inv _ _ _ _ _ _ ?_
        (PushTask_inv _ _ _ _ _ _ ?_ (PushTask_inv _ _ _ _ _ _ ?_
          (PushTask_inv _ _ _ _ _ _ hli hI)))) <;>
        simp only [PushTask_tasks_length] <;> omega
    · rw [if_neg hc]
      refine LockCache_inv _ _ _ (PushTask_inv _ _ _ _ _ _ ?_
        (PushTask_inv _ _ _ _ _ _ hli hI))
      rw [PushTask_tasks_length]
      exact hri

theorem splitArrays_inv (i : Nat) (st : TaskQueue) (hi : i < st.tasks_.length)
    (hI : TaskCountInv st) : TaskCountInv (splitArrays i st).2 := by
  unfold TaskCountInv at hI ⊢
  unfold splitArrays
  simp only
  unfold sumTasks at hI ⊢
  simp only [List.map_append, List.sum_append]
  have hs := sum_map_set List.length st.tasks_ i [] [] hi
  simp only [List.length_nil] at hs
  simp only [List.map_cons, List.map_nil, List.length_nil, List.sum_cons, List.sum_nil]
  omega

theorem split_subtree_inv (prio : Tree → Tree → Int) (i : Nat) (st : TaskQueue)
    (hi : i < st.query_subtrees_.length)
    (hA : st.tasks_.length = st.query_subtrees_.length)
    (hI : TaskCountInv st) : TaskCountInv (split_subtree_ prio i st) := by
  unfold split_subtree_
  simp only
  have hsplit := splitArrays_inv i st (by omega) hI
  have hlen : (splitArrays i st).2.tasks_.length = st.tasks_.length + 1 := by
    unfold splitArrays
    simp only [List.length_append, List.length_set, List.length_cons, List.length_nil]
  refine (foldl_preserve
    (fun s => TaskCountInv s ∧ s.tasks_.length = st.tasks_.length + 1)
    _ ?_ (splitArrays i st).1 (splitArrays i st).2 ⟨hsplit, hlen⟩).1
  intro s t hs
  refine ⟨reEmitTask_inv _ _ _ _ s t ?_ ?_ hs.1, ?_⟩
  · omega
  · rw [hs.2]
    omega
  · unfold reEmitTask
    cases t.refNode with
    | none => simp only [LockCache_tasks, PushTask_tasks_length, hs.2]
    | some n =>
      simp only
      split <;> simp only [LockCache_tasks, PushTask_tasks_length, hs.2]

theorem Redistribute_inv (prio : Tree → Tree → Int) (st : TaskQueue)
    (hA : st.tasks_.length = st.query_subtrees_.length)
    (hI : TaskCountInv st) : TaskCountInv (RedistributeAmongCores prio st) := by
  unfold RedistributeAmongCores
  by_cases hf : st.split_subtree_after_unlocking_ = true
  · rw [if_pos hf]
    simp only
    cases hsel : (selectSplit st).2 with
    | none => exact hI
    | some i =>
      obtain ⟨hi1, _⟩ := (selectLoop_inv st st.query_subtrees_.length).2.2 i hsel
      exact split_subtree_inv prio i st hi1 hA hI
  · rw [if_neg hf]
    exact hI

/-- C4: after every public operation — `Init`, `GenerateTasks`, either
`DequeueTask` form, `RedistributeAmongCores` with its internal split, and the
compaction inside the untargeted dequeue — the counter
`num_remaining_tasks_` equals the sum over every live query subtree of the
number of tasks in its heap. -/
theorem num_remaining_tasks_inv (frontier : List Tree) (qc rc : List Nat) (lq : Nat)
    (prio : Tree → Tree → Int) (exch : Exchange)
    (arrivals : List (Nat × Nat × Nat × Nat)) (i j p : Nat) (out : Task × Nat)
    (lk : Bool) (st : TaskQueue) :
    TaskCountInv (Init frontier qc rc lq) ∧
    (st.tasks_.length = st.query_subtrees_.length → TaskCountInv st →
      TaskCountInv (GenerateTasks prio exch arrivals st)) ∧
    (TaskCountInv st → TaskCountInv ((DequeueTaskAt i out lk st).2)) ∧
    (TaskCountInv st → TaskCountInv ((DequeueTask out lk st).2)) ∧
    (p < st.tasks_.length → st.tasks_.getD p [] = [] → TaskCountInv st →
      TaskCountInv (compact p st)) ∧
    (j < st.query_subtrees_.length → st.tasks_.length = st.query_subtrees_.length →
      TaskCountInv st → TaskCountInv (split_subtree_ prio j st)) ∧
    (st.tasks_.length = st.query_subtrees_.length → TaskCountInv st →
      TaskCountInv (RedistributeAmongCores prio st)) := by
  refine ⟨?_, ?_, ?_, ?_, ?_, ?_, ?_⟩
  · unfold TaskCountInv Init sumTasks
    simp
  · exact GenerateTasks_inv prio exch arrivals st
  · exact DequeueTaskAt_inv i out lk st
  · exact DequeueLoop_inv lk out st 0
  · intro hp he hI
    unfold TaskCountInv at hI ⊢
    rw [sumTasks_compact p st hp he]
    exact hI
  · exact split_subtree_inv prio j st
  · exact Redistribute_inv prio st

/-- Witness for `num_remaining_tasks_inv` at the concrete state. -/
theorem num_remaining_tasks_inv_witness :
    TaskCountInv (Init [exTree0] [10] [16] 10) ∧
    TaskCountInv ((DequeueTask (default, 0) true exSt).2) := by
  have h := num_remaining_tasks_inv [exTree0] [10] [16] 10 exPrio exExchMiss [] 0 0 0
    (default, 0) true exSt
  exact ⟨h.1, h.2.2.2.1 (by unfold TaskCountInv; rfl)⟩

/-! ### C1: the untargeted dequeue scan -/

/-- Every element of `heapPush t l` is `t` or an element of `l`. -/
theorem heapPush_mem (t : Task) (l : List Task) (u : Task) (h : u ∈ heapPush t l) :
    u = t ∨ u ∈ l := by
  induction l with
  | nil =>
    simp [heapPush] at h
    exact Or.inl h
  | cons x xs ih =>
    unfold heapPush at h
    by_cases hc : x.priority < t.priority
    · rw [if_pos hc] at h
      rcases List.mem_cons.mp h with h | h
      · exact Or.inl h
      · exact Or.inr h
    · rw [if_neg hc] at h
      rcases List.mem_cons.mp h with h | h
      · exact Or.inr (by rw [h]; exact List.mem_cons_self x xs)
      · rcases ih h with h2 | h2
        · exact Or.inl h2
        · exact Or.inr (List.mem_cons_of_mem x h2)

/-- `heapPush` keeps a heap sorted by descending priority, so its head is the
max-heap's top. -/
theorem heapPush_sorted (t : Task) (l : List Task)
    (h : List.Pairwise (fun a b : Task => b.priority ≤ a.priority) l) :
    List.Pairwise (fun a b : Task => b.priority ≤ a.priority) (heapPush t l) := by
  induction l with
  | nil => simp [heapPush]
  | cons x xs ih =>
    unfold heapPush
    by_cases hc : x.priority < t.priority
    · rw [if_pos hc]
      refine List.Pairwise.cons ?_ h
      intro u hu
      rcases List.mem_cons.mp hu with hu | hu
      · subst hu
        omega
      · have := (List.pairwise_cons.mp h).1 u hu
        omega
    · rw [if_neg hc]
      refine List.pairwise_cons.mpr ⟨?_, ih (List.pairwise_cons.mp h).2⟩
      intro u hu
      rcases heapPush_mem t xs u hu with hu | hu
      · subst hu
        omega
      · exact (List.pairwise_cons.mp h).1 u hu

theorem DequeueLoop_no_task (lockIn : Bool) (out : Task × Nat) :
    ∀ (st : TaskQueue) (probe : Nat), Aligned st →
      (∀ i, probe ≤ i → i < st.tasks_.length → st.tasks_.getD i [] ≠ [] →
        st.query_subtree_locks_.getD i false = true) →
      (DequeueLoop lockIn out st probe).1 = out := by
  intro st probe
  induction st, probe using DequeueLoop.induct lockIn out with
  | case1 st probe hlt t rest hm hlock ih =>
    intro hA hall
    rw [DequeueLoop, dif_pos hlt, hm]
    simp only [hlock, if_true]
    exact ih hA fun i h1 h2 h3 => hall i (by omega) h2 h3
  | case2 st probe hlt t rest hm hlock =>
    intro hA hall
    exact absurd (hall probe (le_refl _) hlt (by rw [hm]; exact List.cons_ne_nil t rest)) hlock
  | case3 st probe hlt hm hrw ih =>
    intro hA hall
    rw [DequeueLoop, dif_pos hlt, hm, if_pos hrw]
    refine ih (compact_aligned _ _ hA) ?_
    intro i h1 h2 h3
    obtain ⟨ha1, ha2, ha3, ha4⟩ := hA
    have hlen : (compact probe st).tasks_.length = st.tasks_.length - 1 := by
      unfold compact
      simp only [List.length_dropLast, List.length_set]
    rw [hlen] at h2
    have htasks : (compact probe st).tasks_.getD i []
        = if i = probe then st.tasks_.getD (st.tasks_.length - 1) []
          else st.tasks_.getD i [] := by
      unfold compact
      simp only
      rw [getD_dropLast _ _ _ (by simp only [List.length_set]; omega)]
      by_cases hip : i = probe
      · subst hip
        rw [if_pos rfl]
        exact getD_set_self _ _ _ _ (by omega)
      · rw [if_neg hip, getD_set_ne _ _ _ _ _ fun hq => hip hq.symm]
    have hlocks : (compact probe st).query_subtree_locks_.getD i false
        = if i = probe then st.query_subtree_locks_.getD
            (st.query_subtree_locks_.length - 1) false
          else st.query_subtree_locks_.getD i false := by
      unfold compact
      simp only
      rw [getD_dropLast _ _ _ (by simp only [List.length_set]; omega)]
      by_cases hip : i = probe
      · subst hip
        rw [if_pos rfl]
        exact getD_set_self _ _ _ _ (by omega)
      · rw [if_neg hip, getD_set_ne _ _ _ _ _ fun hq => hip hq.symm]
    rw [htasks] at h3
    rw [hlocks]
    by_cases hip : i = probe
    · rw [if_pos hip] at h3 ⊢
      rw [show st.query_subtree_locks_.length = st.tasks_.length by omega]
      exact hall (st.tasks_.length - 1) (by omega) (by omega) h3
    · rw [if_neg hip] at h3 ⊢
      exact hall i h1 (by omega) h3
  | case4 st probe hlt hm hrw ih =>
    intro hA hall
    rw [DequeueLoop, dif_pos hlt, hm, if_neg hrw]
    exact ih hA fun i h1 h2 h3 => hall i (by omega) h2 h3
  | case5 st probe hlt =>
    intro hA hall
    rw [DequeueLoop, dif_neg hlt]

/-- C1: the untargeted `DequeueTask` scans slots in ascending index order
starting at 0; at a slot with a non-empty heap and a clear lock it pops the
top task (the heap head — the maximum under the sorted-heap discipline), sets
the lock to the `lockSubtree` argument, decrements `num_remaining_tasks_` and
returns (task, index); a non-empty locked slot is skipped; a slot with an
empty heap and zero remaining work is retired by the five-array swap-and-pop
and re-examined at the same index; a slot with an empty heap and work left is
skipped; and when no slot has a non-empty heap with a clear lock, no task is
produced: the out-parameter is returned as the caller initialized it. -/
theorem untargeted_dequeue_spec (st : TaskQueue) (probe : Nat) (out : Task × Nat)
    (lockIn : Bool) (t : Task) (rest : List Task) :
    (DequeueTask out lockIn st = DequeueLoop lockIn out st 0) ∧
    (probe < st.tasks_.length → st.tasks_.getD probe [] = t :: rest →
      st.query_subtree_locks_.getD probe false = false →
      DequeueLoop lockIn out st probe =
        ((t, probe),
         { st with
           tasks_ := st.tasks_.set probe rest,
           query_subtree_locks_ := st.query_subtree_locks_.set probe lockIn,
           num_remaining_tasks_ := st.num_remaining_tasks_ - 1 })) ∧
    (probe < st.tasks_.length → st.tasks_.getD probe [] = t :: rest →
      List.Pairwise (fun a b : Task => b.priority ≤ a.priority) (t :: rest) →
      ∀ u ∈ st.tasks_.getD probe [], u.priority ≤ t.priority) ∧
    (probe < st.tasks_.length → st.tasks_.getD probe [] = t :: rest →
      st.query_subtree_locks_.getD probe false = true →
      DequeueLoop lockIn out st probe = DequeueLoop lockIn out st (probe + 1)) ∧
    (probe < st.tasks_.length → st.tasks_.getD probe [] = [] →
      st.remaining_work_for_query_subtrees_.getD probe 0 = 0 →
      DequeueLoop lockIn out st probe = DequeueLoop lockIn out (compact probe st) probe) ∧
    (probe < st.tasks_.length → st.tasks_.getD probe [] = [] →
      st.remaining_work_for_query_subtrees_.getD probe 0 ≠ 0 →
      DequeueLoop lockIn out st probe = DequeueLoop lockIn out st (probe + 1)) ∧
    (Aligned st →
      (∀ i, i < st.tasks_.length → st.tasks_.getD i [] ≠ [] →
        st.query_subtree_locks_.getD i false = true) →
      (DequeueTask out lockIn st).1 = out) := by
  refine ⟨rfl, ?_, ?_, ?_, ?_, ?_, ?_⟩
  · intro hp hm hl
    rw [DequeueLoop, dif_pos hp, hm]
    simp only [hl, Bool.false_eq_true, if_false]
  · intro hp hm hsort u hu
    rw [hm] at hu
    rcases List.mem_cons.mp hu with hu | hu
    · subst hu
      exact le_refl _
    · exact (List.pairwise_cons.mp hsort).1 u hu
  · intro hp hm hl
    rw [DequeueLoop, dif_pos hp, hm]
    simp only [hl, if_true]
  · intro hp hm hr
    rw [DequeueLoop, dif_pos hp, hm, if_pos hr]
  · intro hp hm hr
    rw [DequeueLoop, dif_pos hp, hm, if_neg hr]
  · intro hA hall
    exact DequeueLoop_no_task lockIn out st 0 hA fun i _ h2 h3 => hall i h2 h3

/-- Witness for `untargeted_dequeue_spec` at the concrete state: slot 0 is
empty with work remaining and is skipped; slot 1 is non-empty but locked and
is skipped; no slot is eligible, so the scan returns the out-parameter
untouched. -/
theorem untargeted_dequeue_spec_witness :
    DequeueLoop true (default, 7) exSt 0 = DequeueLoop true (default, 7) exSt 1 ∧
    DequeueLoop true (default, 7) exSt 1 = DequeueLoop true (default, 7) exSt 2 ∧
    (DequeueTask (default, 7) true exSt).1 = (default, 7) ∧
    (DequeueLoop true (default, 7)
        { exSt with tasks_ := [[exTask0], []], query_subtree_locks_ := [false, false] }
        0).1 = (exTask0, 0) := by
  have h0 := untargeted_dequeue_spec exSt 0 (default, 7) true exTask0 []
  have h1 := untargeted_dequeue_spec exSt 1 (default, 7) true exTask0 []
  have h2 := untargeted_dequeue_spec
    { exSt with tasks_ := [[exTask0], []], query_subtree_locks_ := [false, false] }
    0 (default, 7) true exTask0 []
  refine ⟨?_, ?_, ?_, ?_⟩
  · exact h0.2.2.2.2.2.1 (by decide) (by decide) (by decide)
  · exact h1.2.2.2.1 (by decide) (by decide) (by decide)
  · exact h0.2.2.2.2.2.2 (by constructor <;> simp [exSt]) (by decide)
  · rw [h2.2.1 (by decide) (by decide) (by decide)]

/-! ### C2: the split re-emission protocol -/

/-- C2: a split of slot `p` with parent node `T` (unlocked, as the caller's
selection guarantees) replaces slot `p` by `T.left` and appends `T.right`
with an unlocked lock bit, a fresh empty heap, a copy of `AssignedWork[p]`
and `RemainingWork[p]` as its credit, then re-emits every drained task in
order: a task whose reference node is a non-leaf equal to `T` becomes exactly
four tasks — (left, N.left), (left, N.right), (right, N.left),
(right, N.right), each with a freshly computed priority — with
`Cache.Lock(c, 3)`; every other task becomes exactly two tasks (left, N) and
(right, N) with `Cache.Lock(c, 1)`; no other heap and no other dispatcher
field is touched by a re-emission step. -/
theorem split_reemit_spec (prio : Tree → Tree → Int) (idx : Nat) (st s : TaskQueue)
    (u : Task) (n pq : Tree) (li ri : Nat) :
    (split_subtree_ prio idx st =
      (st.tasks_.getD idx []).foldl
        (reEmitTask prio (st.query_subtrees_.getD idx default) idx
          st.query_subtrees_.length)
        { st with
          query_subtrees_ :=
            (st.query_subtrees_.set idx (st.query_subtrees_.getD idx default).left)
              ++ [(st.query_subtrees_.getD idx default).right],
          query_subtree_locks_ := st.query_subtree_locks_ ++ [false],
          tasks_ := (st.tasks_.set idx []) ++ [[]],
          assigned_work_ := st.assigned_work_ ++ [st.assigned_work_.getD idx []],
          remaining_work_for_query_subtrees_ :=
            st.remaining_work_for_query_subtrees_ ++
              [st.remaining_work_for_query_subtrees_.getD idx 0],
          num_remaining_tasks_ :=
            st.num_remaining_tasks_ - (st.tasks_.getD idx []).length }) ∧
    (idx < st.query_subtrees_.length →
      (splitArrays idx st).2.query_subtrees_.getD idx default
          = (st.query_subtrees_.getD idx default).left ∧
      (splitArrays idx st).2.query_subtrees_.getD st.query_subtrees_.length default
          = (st.query_subtrees_.getD idx default).right) ∧
    (u.refNode = some n → n.isLeaf = false → pq = n →
      li < s.tasks_.length → ri < s.tasks_.length → li ≠ ri →
      (reEmitTask prio pq li ri s u).tasks_.getD li []
          = heapPush (pushedTask prio li u.refRank (some n.right) u.cacheId s)
              (heapPush (pushedTask prio li u.refRank (some n.left) u.cacheId s)
                (s.tasks_.getD li [])) ∧
      (reEmitTask prio pq li ri s u).tasks_.getD ri []
          = heapPush (pushedTask prio ri u.refRank (some n.right) u.cacheId s)
              (heapPush (pushedTask prio ri u.refRank (some n.left) u.cacheId s)
                (s.tasks_.getD ri [])) ∧
      (∀ k, k ≠ li → k ≠ ri →
        (reEmitTask prio pq li ri s u).tasks_.getD k [] = s.tasks_.getD k []) ∧
      (reEmitTask prio pq li ri s u).num_remaining_tasks_
          = s.num_remaining_tasks_ + 4 ∧
      (reEmitTask prio pq li ri s u).lockLog = s.lockLog ++ [(u.cacheId, 3)] ∧
      (reEmitTask prio pq li ri s u).query_subtrees_ = s.query_subtrees_ ∧
      (reEmitTask prio pq li ri s u).assigned_work_ = s.assigned_work_ ∧
      (reEmitTask prio pq li ri s u).remaining_work_for_query_subtrees_
          = s.remaining_work_for_query_subtrees_ ∧
      (reEmitTask prio pq li ri s u).query_subtree_locks_
          = s.query_subtree_locks_) ∧
    (u.refNode = some n → (n.isLeaf = true ∨ pq ≠ n) →
      li < s.tasks_.length → ri < s.tasks_.length → li ≠ ri →
      (reEmitTask prio pq li ri s u).tasks_.getD li []
          = heapPush (pushedTask prio li u.refRank (some n) u.cacheId s)
              (s.tasks_.getD li []) ∧
      (reEmitTask prio pq li ri s u).tasks_.getD ri []
          = heapPush (pushedTask prio ri u.refRank (some n) u.cacheId s)
              (s.tasks_.getD ri []) ∧
      (∀ k, k ≠ li → k ≠ ri →
        (reEmitTask prio pq li ri s u).tasks_.getD k [] = s.tasks_.getD k []) ∧
      (reEmitTask prio pq li ri s u).num_remaining_tasks_
          = s.num_remaining_tasks_ + 2 ∧
      (reEmitTask prio pq li ri s u).lockLog = s.lockLog ++ [(u.cacheId, 1)]) := by
  refine ⟨rfl, ?_, ?_, ?_⟩
  · intro hidx
    constructor
    · unfold splitArrays
      simp only
      rw [getD_append_left _ _ _ _ (by simp only [List.length_set]; exact hidx)]
      exact getD_set_self _ _ _ _ hidx
    · unfold splitArrays
      simp only
      rw [show st.query_subtrees_.length
            = (st.query_subtrees_.set idx
                (st.query_subtrees_.getD idx default).left).length
          from (List.length_set _ _ _).symm]
      exact getD_append_len _ _ _
  · intro hrn hleaf hpq hli hri hne
    have hc : (!n.isLeaf && pq == n) = true := by
      rw [hleaf, hpq]
      simp
    unfold reEmitTask
    rw [hrn]
    simp only [hc, if_true]
    have hl1 : li < (PushTask_ prio li u.refRank (some n.left) u.cacheId s).tasks_.length := by
      rw [PushTask_tasks_length]
      exact hli
    have hl2 : li < (PushTask_ prio li u.refRank (some n.right) u.cacheId
        (PushTask_ prio li u.refRank (some n.left) u.cacheId s)).tasks_.length := by
      rw [PushTask_tasks_length, PushTask_tasks_length]
      exact hli
    refine ⟨?_, ?_, ?_, ?_, rfl, rfl, rfl, rfl, rfl⟩
    · rw [LockCache_tasks,
        PushTask_tasks_getD_ne _ _ _ _ _ _ _ (fun hq => hne hq.symm),
        PushTask_tasks_getD_ne _ _ _ _ _ _ _ (fun hq => hne hq.symm),
        PushTask_tasks_getD_self _ _ _ _ _ _ hl1,
        PushTask_tasks_getD_self _ _ _ _ _ _ hli]
      rfl
    · rw [LockCache_tasks, PushTask_tasks_getD_self _ _ _ _ _ _
          (by rw [PushTask_tasks_length, PushTask_tasks_length, PushTask_tasks_length]; exact hri),
        PushTask_tasks_getD_self _ _ _ _ _ _
          (by rw [PushTask_tasks_length, PushTask_tasks_length]; exact hri),
        PushTask_tasks_getD_ne _ _ _ _ _ _ _ hne,
        PushTask_tasks_getD_ne _ _ _ _ _ _ _ hne]
      rfl
    · intro k hkli hkri
      rw [LockCache_tasks,
        PushTask_tasks_getD_ne _ _ _ _ _ _ _ (fun hq => hkri hq.symm),
        PushTask_tasks_getD_ne _ _ _ _ _ _ _ (fun hq => hkri hq.symm),
        PushTask_tasks_getD_ne _ _ _ _ _ _ _ (fun hq => hkli hq.symm),
        PushTask_tasks_getD_ne _ _ _ _ _ _ _ (fun hq => hkli hq.symm)]
    · rw [LockCache_num, PushTask_num, PushTask_num, PushTask_num, PushTask_num]
      ring
  · intro hrn hor hli hri hne
    have hc : (!n.isLeaf && pq == n) = false := by
      rcases hor with h | h
      · rw [h]
        rfl
      · simp [beq_eq_false_iff_ne.mpr h]
    unfold reEmitTask
    rw [hrn]
    simp only [hc, Bool.false_eq_true, if_false]
    refine ⟨?_, ?_, ?_, ?_, rfl⟩
    · rw [LockCache_tasks,
        PushTask_tasks_getD_ne _ _ _ _ _ _ _ (fun hq => hne hq.symm),
        PushTask_tasks_getD_self _ _ _ _ _ _ hli]
    · rw [LockCache_tasks, PushTask_tasks_getD_self _ _ _ _ _ _
          (by rw [PushTask_tasks_length]; exact hri),
        PushTask_tasks_getD_ne _ _ _ _ _ _ _ hne]
      rfl
    · intro k hkli hkri
      rw [LockCache_tasks,
        PushTask_tasks_getD_ne _ _ _ _ _ _ _ (fun hq => hkri hq.symm),
        PushTask_tasks_getD_ne _ _ _ _ _ _ _ (fun hq => hkli hq.symm)]
    · rw [LockCache_num, PushTask_num, PushTask_num]
      ring

/-- Witness for `split_reemit_spec`: splitting slot 0 of a state whose single
pending task is the self-pair (exTree0, exTree0) re-emits four tasks and logs
Cache.Lock(9, 3). -/
theorem split_reemit_spec_witness :
    ((splitArrays 0
        { exSt with
          tasks_ := [[⟨exTree0, 0, some exTree0, 9, 5⟩], []],
          query_subtree_locks_ := [false, false] }).2.query_subtrees_.getD 0 default
      = exTree0.left) ∧
    (reEmitTask exPrio exTree0 0 2
        (splitArrays 0
          { exSt with
            tasks_ := [[⟨exTree0, 0, some exTree0, 9, 5⟩], []],
            query_subtree_locks_ := [false, false] }).2
        ⟨exTree0, 0, some exTree0, 9, 5⟩).num_remaining_tasks_
      = (splitArrays 0
          { exSt with
            tasks_ := [[⟨exTree0, 0, some exTree0, 9, 5⟩], []],
            query_subtree_locks_ := [false, false] }).2.num_remaining_tasks_ + 4 ∧
    (reEmitTask exPrio exTree0 0 2
        (splitArrays 0
          { exSt with
            tasks_ := [[⟨exTree0, 0, some exTree0, 9, 5⟩], []],
            query_subtree_locks_ := [false, false] }).2
        ⟨exTree0, 0, some exTree0, 9, 5⟩).lockLog
      = (splitArrays 0
          { exSt with
            tasks_ := [[⟨exTree0, 0, some exTree0, 9, 5⟩], []],
            query_subtree_locks_ := [false, false] }).2.lockLog ++ [(9, 3)] := by
  have h := split_reemit_spec exPrio 0
    { exSt with
      tasks_ := [[⟨exTree0, 0, some exTree0, 9, 5⟩], []],
      query_subtree_locks_ := [false, false] }
    (splitArrays 0
      { exSt with
        tasks_ := [[⟨exTree0, 0, some exTree0, 9, 5⟩], []],
        query_subtree_locks_ := [false, false] }).2
    ⟨exTree0, 0, some exTree0, 9, 5⟩ exTree0 exTree0 0 2
  have h4 := h.2.2.1 rfl rfl rfl (by decide) (by decide) (by decide)
  exact ⟨(h.2.1 (by decide)).1, h4.2.2.2.1, h4.2.2.2.2.1⟩

/-! ### C3: GenerateTasks is idempotent and dedups through the interval sets -/

theorem genStep_covered (prio : Tree → Tree → Int) (rr b c cid : Nat)
    (rn : Option Tree) (j : Nat) (st : TaskQueue)
    (hmem : (rr, b, b + c) ∈ st.assigned_work_.getD j []) :
    genStep prio rr b c cid rn j st = st := by
  unfold genStep diiInsert
  simp only
  rw [if_pos hmem]
  rfl

theorem genStep_aw_mono (prio : Tree → Tree → Int) (rr b c cid : Nat)
    (rn : Option Tree) (j : Nat) (st : TaskQueue) (k : Nat) (t : Triple)
    (hmem : t ∈ st.assigned_work_.getD k []) :
    t ∈ (genStep prio rr b c cid rn j st).assigned_work_.getD k [] := by
  unfold genStep diiInsert
  simp only
  by_cases hm2 : (rr, b, b + c) ∈ st.assigned_work_.getD j []
  · rw [if_pos hm2]
    exact hmem
  · rw [if_neg hm2]
    show t ∈ (st.assigned_work_.set j
      ((rr, b, b + c) :: st.assigned_work_.getD j [])).getD k []
    by_cases hjk : j = k
    · subst hjk
      by_cases hlen : j < st.assigned_work_.length
      · rw [getD_set_self _ _ _ _ hlen]
        exact List.mem_cons_of_mem _ hmem
      · rw [List.set_eq_of_length_le (by omega)]
        exact hmem
    · rw [getD_set_ne _ _ _ _ _ hjk]
      exact hmem

theorem genStep_inserts (prio : Tree → Tree → Int) (rr b c cid : Nat)
    (rn : Option Tree) (j : Nat) (st : TaskQueue)
    (hj : j < st.assigned_work_.length) :
    (rr, b, b + c) ∈ (genStep prio rr b c cid rn j st).assigned_work_.getD j [] := by
  unfold genStep diiInsert
  simp only
  by_cases hm2 : (rr, b, b + c) ∈ st.assigned_work_.getD j []
  · rw [if_pos hm2]
    exact hm2
  · rw [if_neg hm2]
    show (rr, b, b + c) ∈ (st.assigned_work_.set j
      ((rr, b, b + c) :: st.assigned_work_.getD j [])).getD j []
    rw [getD_set_self _ _ _ _ hj]
    exact List.mem_cons_self _ _

theorem genInner_covers (prio : Tree → Tree → Int) (rr b c cid : Nat)
    (rn : Option Tree) :
    ∀ (idxs : List Nat) (s : TaskQueue),
      (∀ j2, j2 ∈ idxs → j2 < s.assigned_work_.length) →
      ∀ j, j ∈ idxs →
        (rr, b, b + c) ∈
          (idxs.foldl (fun s2 j2 => genStep prio rr b c cid rn j2 s2) s).assigned_work_.getD
            j [] := by
  intro idxs
  induction idxs with
  | nil =>
    intro s _ j hj
    simp at hj
  | cons j0 rest ih =>
    intro s hlen j hj
    simp only [List.foldl_cons]
    have hlen2 : ∀ j2, j2 ∈ rest →
        j2 < (genStep prio rr b c cid rn j0 s).assigned_work_.length := by
      intro j2 hj2
      rw [(genStep_frame prio rr b c cid rn j0 s).2.2.2.1]
      exact hlen j2 (List.mem_cons_of_mem _ hj2)
    rcases List.mem_cons.mp hj with hj | hj
    · subst hj
      have h0 := genStep_inserts prio rr b c cid rn j s (hlen j (List.mem_cons_self _ _))
      exact foldl_preserve
        (fun s2 => (rr, b, b + c) ∈ s2.assigned_work_.getD j [])
        _ (fun s2 a hm => genStep_aw_mono prio rr b c cid rn a s2 j _ hm)
        rest _ h0
    · exact ih (genStep prio rr b c cid rn j0 s) hlen2 j hj

theorem genArrival_covers (prio : Tree → Tree → Int) (exch : Exchange)
    (st : TaskQueue) (arr : Nat × Nat × Nat × Nat)
    (hA : st.assigned_work_.length = st.query_subtrees_.length) :
    ∀ j, j < st.query_subtrees_.length →
      arrTriple exch arr ∈ (genArrival prio exch st arr).assigned_work_.getD j [] := by
  intro j hj
  rw [genArrival_eq]
  exact genInner_covers prio (arrRank exch arr) arr.2.1 arr.2.2.1 arr.2.2.2
    (refNodeOf exch arr) (List.range st.query_subtrees_.length) st
    (fun j2 hj2 => by rw [hA]; exact List.mem_range.mp hj2)
    j (List.mem_range.mpr hj)

theorem genArrival_identity (prio : Tree → Tree → Int) (exch : Exchange)
    (s : TaskQueue) (arr : Nat × Nat × Nat × Nat)
    (hcov : ∀ j, j < s.query_subtrees_.length →
      arrTriple exch arr ∈ s.assigned_work_.getD j []) :
    genArrival prio exch s arr = s := by
  rw [genArrival_eq]
  have hgen : ∀ (idxs : List Nat),
      (∀ j, j ∈ idxs → arrTriple exch arr ∈ s.assigned_work_.getD j []) →
      idxs.foldl (fun s2 j2 => genStep prio (arrRank exch arr) arr.2.1 arr.2.2.1
        arr.2.2.2 (refNodeOf exch arr) j2 s2) s = s := by
    intro idxs
    induction idxs with
    | nil => intro _; rfl
    | cons j0 rest ih =>
      intro h
      simp only [List.foldl_cons]
      rw [genStep_covered _ _ _ _ _ _ _ _ (h j0 (List.mem_cons_self _ _))]
      exact ih fun j hj => h j (List.mem_cons_of_mem _ hj)
  exact hgen _ fun j hj => hcov j (List.mem_range.mp hj)

theorem genArrival_mono (prio : Tree → Tree → Int) (exch : Exchange)
    (s : TaskQueue) (arr : Nat × Nat × Nat × Nat) (k : Nat) (t : Triple)
    (hmem : t ∈ s.assigned_work_.getD k []) :
    t ∈ (genArrival prio exch s arr).assigned_work_.getD k [] := by
  rw [genArrival_eq]
  exact foldl_preserve (fun s2 => t ∈ s2.assigned_work_.getD k []) _
    (fun s2 a hm => genStep_aw_mono _ _ _ _ _ _ a s2 k t hm) _ s hmem

theorem genArrival_keeps_aw (prio : Tree → Tree → Int) (exch : Exchange)
    (st : TaskQueue) (arr : Nat × Nat × Nat × Nat) :
    (genArrival prio exch st arr).assigned_work_.length = st.assigned_work_.length := by
  rw [genArrival_eq]
  exact foldl_preserve (fun s => s.assigned_work_.length = st.assigned_work_.length) _
    (fun s a hs => Eq.trans (genStep_frame prio (arrRank exch arr) arr.2.1 arr.2.2.1
      arr.2.2.2 (refNodeOf exch arr) a s).2.2.2.1 hs) _ st rfl

theorem GenerateTasks_covers (prio : Tree → Tree → Int) (exch : Exchange) :
    ∀ (arrivals : List (Nat × Nat × Nat × Nat)) (st : TaskQueue),
      st.assigned_work_.length = st.query_subtrees_.length →
      ∀ arr, arr ∈ arrivals → ∀ j, j < st.query_subtrees_.length →
        arrTriple exch arr ∈
          (GenerateTasks prio exch arrivals st).assigned_work_.getD j [] := by
  intro arrivals
  induction arrivals with
  | nil =>
    intro st _ arr harr
    simp at harr
  | cons a rest ih =>
    intro st hA arr harr j hj
    have hstep : GenerateTasks prio exch (a :: rest) st
        = GenerateTasks prio exch rest (genArrival prio exch st a) := rfl
    rw [hstep]
    have hA2 : (genArrival prio exch st a).assigned_work_.length
        = (genArrival prio exch st a).query_subtrees_.length := by
      rw [genArrival_keeps_aw, (genArrival_keeps prio exch st a).1, hA]
    have hqs : (genArrival prio exch st a).query_subtrees_.length
        = st.query_subtrees_.length := by
      rw [(genArrival_keeps prio exch st a).1]
    rcases List.mem_cons.mp harr with harr | harr
    · subst harr
      have h0 := genArrival_covers prio exch st arr hA j hj
      unfold GenerateTasks
      exact foldl_preserve
        (fun s2 => arrTriple exch arr ∈ s2.assigned_work_.getD j []) _
        (fun s2 a2 hm => genArrival_mono prio exch s2 a2 j _ hm)
        rest _ h0
    · exact ih (genArrival prio exch st a) hA2 arr harr j (by rw [hqs]; exact hj)

theorem GenerateTasks_keeps (prio : Tree → Tree → Int) (exch : Exchange)
    (arrivals : List (Nat × Nat × Nat × Nat)) (st : TaskQueue) :
    (GenerateTasks prio exch arrivals st).query_subtrees_ = st.query_subtrees_ ∧
    (GenerateTasks prio exch arrivals st).assigned_work_.length
      = st.assigned_work_.length := by
  unfold GenerateTasks
  exact foldl_preserve
    (fun s => s.query_subtrees_ = st.query_subtrees_ ∧
      s.assigned_work_.length = st.assigned_work_.length) _
    (fun s a hs => ⟨Eq.trans (genArrival_keeps prio exch s a).1 hs.1,
      Eq.trans (genArrival_keeps_aw prio exch s a) hs.2⟩) _ st ⟨rfl, rfl⟩

theorem GenerateTasks_idem (prio : Tree → Tree → Int) (exch : Exchange)
    (arrivals : List (Nat × Nat × Nat × Nat)) (st : TaskQueue)
    (hA : st.assigned_work_.length = st.query_subtrees_.length) :
    GenerateTasks prio exch arrivals (GenerateTasks prio exch arrivals st)
      = GenerateTasks prio exch arrivals st := by
  have hcov := GenerateTasks_covers prio exch arrivals st hA
  have hqs := (GenerateTasks_keeps prio exch arrivals st).1
  have hgen : ∀ (l : List (Nat × Nat × Nat × Nat)),
      (∀ arr, arr ∈ l →
        ∀ j, j < (GenerateTasks prio exch arrivals st).query_subtrees_.length →
          arrTriple exch arr ∈
            (GenerateTasks prio exch arrivals st).assigned_work_.getD j []) →
      List.foldl (genArrival prio exch) (GenerateTasks prio exch arrivals st) l
        = GenerateTasks prio exch arrivals st := by
    intro l
    induction l with
    | nil => intro _; rfl
    | cons a rest ih =>
      intro h
      simp only [List.foldl_cons]
      rw [genArrival_identity prio exch _ a (h a (List.mem_cons_self _ _))]
      exact ih fun arr harr => h arr (List.mem_cons_of_mem _ harr)
  exact hgen arrivals fun arr harr j hj =>
    hcov arr harr j (by rw [← hqs]; exact hj)

theorem foldl_locks {α : Type} (f : TaskQueue → α → TaskQueue)
    (hf : ∀ s a, ∃ l2, (f s a).lockLog = s.lockLog ++ l2 ∧
      (∀ e, e ∈ l2 → e.2 = 1) ∧
      (f s a).num_remaining_tasks_ = s.num_remaining_tasks_ + l2.length) :
    ∀ (l : List α) (s : TaskQueue), ∃ l2,
      (l.foldl f s).lockLog = s.lockLog ++ l2 ∧
      (∀ e, e ∈ l2 → e.2 = 1) ∧
      (l.foldl f s).num_remaining_tasks_ = s.num_remaining_tasks_ + l2.length := by
  intro l
  induction l with
  | nil =>
    intro s
    exact ⟨[], by simp, by simp, by simp⟩
  | cons a rest ih =>
    intro s
    obtain ⟨la, ha1, ha2, ha3⟩ := hf s a
    obtain ⟨lb, hb1, hb2, hb3⟩ := ih (f s a)
    refine ⟨la ++ lb, ?_, ?_, ?_⟩
    · simp only [List.foldl_cons] at *
      rw [hb1, ha1, List.append_assoc]
    · intro e he
      rcases List.mem_append.mp he with he | he
      · exact ha2 e he
      · exact hb2 e he
    · simp only [List.foldl_cons] at *
      rw [hb3, ha3, List.length_append]
      push_cast
      ring

theorem genStep_locks (prio : Tree → Tree → Int) (rr b c cid : Nat)
    (rn : Option Tree) (j : Nat) (st : TaskQueue) :
    ∃ l2, (genStep prio rr b c cid rn j st).lockLog = st.lockLog ++ l2 ∧
      (∀ e, e ∈ l2 → e.2 = 1) ∧
      (genStep prio rr b c cid rn j st).num_remaining_tasks_
        = st.num_remaining_tasks_ + l2.length := by
  unfold genStep
  simp only
  split
  · refine ⟨[(cid, 1)], ?_, ?_, ?_⟩
    · rw [LockCache_lockLog, PushTask_lockLog]
    · intro e he
      simp at he
      rw [he]
    · rw [LockCache_num, PushTask_num]
      simp
  · exact ⟨[], by simp, by simp, by simp⟩

theorem genArrival_locks (prio : Tree → Tree → Int) (exch : Exchange)
    (st : TaskQueue) (arr : Nat × Nat × Nat × Nat) :
    ∃ l2, (genArrival prio exch st arr).lockLog = st.lockLog ++ l2 ∧
      (∀ e, e ∈ l2 → e.2 = 1) ∧
      (genArrival prio exch st arr).num_remaining_tasks_
        = st.num_remaining_tasks_ + l2.length := by
  rw [genArrival_eq]
  exact foldl_locks _
    (fun s a => genStep_locks prio (arrRank exch arr) arr.2.1 arr.2.2.1 arr.2.2.2
      (refNodeOf exch arr) a s) _ st

theorem GenerateTasks_locks (prio : Tree → Tree → Int) (exch : Exchange)
    (arrivals : List (Nat × Nat × Nat × Nat)) (st : TaskQueue) :
    ∃ l2, (GenerateTasks prio exch arrivals st).lockLog = st.lockLog ++ l2 ∧
      (∀ e, e ∈ l2 → e.2 = 1) ∧
      (GenerateTasks prio exch arrivals st).num_remaining_tasks_
        = st.num_remaining_tasks_ + l2.length := by
  unfold GenerateTasks
  exact foldl_locks _ (fun s a => genArrival_locks prio exch s a) _ st

theorem countP_heapPush (p : Task → Bool) (t : Task) (l : List Task) :
    (heapPush t l).countP p = l.countP p + (if p t then 1 else 0) := by
  induction l with
  | nil =>
    simp [heapPush, List.countP_cons]
  | cons x xs ih =>
    unfold heapPush
    by_cases hc : x.priority < t.priority
    · rw [if_pos hc]
      simp [List.countP_cons]
    · rw [if_neg hc]
      simp only [List.countP_cons, ih]
      omega

/-- The per-state relation of the no-duplicate argument: relative to the
starting state `st0`, every (heap, interval) pair has gained at most one
task, and a gained task's interval is recorded in that slot's interval set. -/
def NoDupFrom (st0 s : TaskQueue) : Prop :=
  (∀ q tr, tcount q tr s ≤ tcount q tr st0 + 1 ∧
    (tcount q tr st0 < tcount q tr s → tr ∈ s.assigned_work_.getD q [])) ∧
  s.assigned_work_.length = s.tasks_.length

theorem genStep_nodup (prio : Tree → Tree → Int) (rr b c cid : Nat)
    (nd : Tree) (hnb : nd.begin = b) (hnc : nd.count = c)
    (j : Nat) (st0 s : TaskQueue) (hP : NoDupFrom st0 s) :
    NoDupFrom st0 (genStep prio rr b c cid (some nd) j s) := by
  obtain ⟨hP, hal⟩ := hP
  have hf := genStep_frame prio rr b c cid (some nd) j s
  refine ⟨?_, by rw [hf.2.2.2.1, hf.2.2.2.2.1]; exact hal⟩
  intro q tr
  by_cases hm : (rr, b, b + c) ∈ s.assigned_work_.getD j []
  · rw [genStep_covered prio rr b c cid (some nd) j s hm]
    exact hP q tr
  · have htB : (genStep prio rr b c cid (some nd) j s).tasks_
        = s.tasks_.set j
            (heapPush (pushedTask prio j rr (some nd) cid s) (s.tasks_.getD j [])) := by
      unfold genStep diiInsert
      simp only
      rw [if_neg hm]
      rfl
    have hawB : (genStep prio rr b c cid (some nd) j s).assigned_work_
        = s.assigned_work_.set j ((rr, b, b + c) :: s.assigned_work_.getD j []) := by
      unfold genStep diiInsert
      simp only
      rw [if_neg hm]
      rfl
    have htrip : taskTriple (pushedTask prio j rr (some nd) cid s) = (rr, b, b + c) := by
      unfold taskTriple pushedTask
      simp only
      rw [hnb, hnc]
    by_cases hqj : q = j
    · subst hqj
      by_cases hjl : q < s.tasks_.length
      · have hcnt : tcount q tr (genStep prio rr b c cid (some nd) q s)
            = tcount q tr s
              + (if taskTriple (pushedTask prio q rr (some nd) cid s) == tr
                 then 1 else 0) := by
          unfold tcount
          rw [htB, getD_set_self _ _ _ _ hjl, countP_heapPush]
        rw [hcnt, htrip]
        by_cases htr : ((rr, b, b + c) : Triple) = tr
        · subst htr
          have hle : tcount q (rr, b, b + c) s ≤ tcount q (rr, b, b + c) st0 := by
            by_contra hgt
            exact hm ((hP q (rr, b, b + c)).2 (by omega))
          constructor
          · simp only [beq_self_eq_true, if_true]
            omega
          · intro _
            rw [hawB, getD_set_self _ _ _ _ (by omega)]
            exact List.mem_cons_self _ _
        · rw [if_neg (by simpa using htr)]
          constructor
          · simpa using (hP q tr).1
          · intro hlt
            rw [hawB, getD_set_self _ _ _ _ (by omega)]
            exact List.mem_cons_of_mem _ ((hP q tr).2 (by simpa using hlt))
      · have hcnt : tcount q tr (genStep prio rr b c cid (some nd) q s)
            = tcount q tr s := by
          unfold tcount
          rw [htB, List.set_eq_of_length_le (by omega)]
        have haw2 : (genStep prio rr b c cid (some nd) q s).assigned_work_
            = s.assigned_work_ := by
          rw [hawB, List.set_eq_of_length_le (by omega)]
        rw [hcnt, haw2]
        exact hP q tr
    · have hcnt : tcount q tr (genStep prio rr b c cid (some nd) j s)
          = tcount q tr s := by
        unfold tcount
        rw [htB, getD_set_ne _ _ _ _ _ fun hq => hqj hq.symm]
      rw [hcnt]
      refine ⟨(hP q tr).1, ?_⟩
      intro hlt
      rw [hawB, getD_set_ne _ _ _ _ _ fun hq => hqj hq.symm]
      exact (hP q tr).2 hlt

theorem genArrival_nodup (prio : Tree → Tree → Int) (exch : Exchange)
    (arr : Nat × Nat × Nat × Nat) (nd : Tree)
    (hnd : refNodeOf exch arr = some nd)
    (hnb : nd.begin = arr.2.1) (hnc : nd.count = arr.2.2.1)
    (st0 s : TaskQueue) (hP : NoDupFrom st0 s) :
    NoDupFrom st0 (genArrival prio exch s arr) := by
  rw [genArrival_eq, hnd]
  exact foldl_preserve (NoDupFrom st0) _
    (fun s2 a h2 => genStep_nodup prio (arrRank exch arr) arr.2.1 arr.2.2.1 arr.2.2.2
      nd hnb hnc a st0 s2 h2) _ s hP

theorem GenerateTasks_nodup (prio : Tree → Tree → Int) (exch : Exchange)
    (arrivals : List (Nat × Nat × Nat × Nat)) (st : TaskQueue)
    (hal : st.assigned_work_.length = st.tasks_.length)
    (hwf : ∀ arr, arr ∈ arrivals → ∃ nd, refNodeOf exch arr = some nd ∧
      nd.begin = arr.2.1 ∧ nd.count = arr.2.2.1) :
    ∀ q tr, tcount q tr (GenerateTasks prio exch arrivals st)
      ≤ tcount q tr st + 1 := by
  have hbase : NoDupFrom st st := ⟨fun q tr => ⟨by omega, fun h => absurd h (by omega)⟩, hal⟩
  have := foldl_preserve_mem (NoDupFrom st) (genArrival prio exch) arrivals
    (fun s a ha h2 => by
      obtain ⟨nd, hnd, hnb, hnc⟩ := hwf a ha
      exact genArrival_nodup prio exch a nd hnd hnb hnc st s h2)
    st hbase
  intro q tr
  exact (this.1 q tr).1

/-- C3: `GenerateTasks` is idempotent for a fixed arrival list: a second call
with the same list leaves the whole dispatcher state — in particular every
heap's contents — unchanged, and so issues no further cache locks (the
interval sets deduplicate).  It takes exactly one cache lock (an increment of
exactly 1) per task actually enqueued, and it never creates two tasks in the
same heap covering the same (rank, begin, begin+count) reference interval:
each heap's count of tasks covering a given interval grows by at most one per
call (under a cache whose lookups return nodes carrying the queried
(begin, count)). -/
theorem generate_tasks_idempotent (prio : Tree → Tree → Int) (exch : Exchange)
    (arrivals : List (Nat × Nat × Nat × Nat)) (st : TaskQueue)
    (q : Nat) (tr : Triple) :
    (st.assigned_work_.length = st.query_subtrees_.length →
      GenerateTasks prio exch arrivals (GenerateTasks prio exch arrivals st)
        = GenerateTasks prio exch arrivals st) ∧
    (∃ l2, (GenerateTasks prio exch arrivals st).lockLog = st.lockLog ++ l2 ∧
      (∀ e, e ∈ l2 → e.2 = 1) ∧
      (GenerateTasks prio exch arrivals st).num_remaining_tasks_
        = st.num_remaining_tasks_ + l2.length) ∧
    (st.assigned_work_.length = st.tasks_.length →
      (∀ arr, arr ∈ arrivals → ∃ nd, refNodeOf exch arr = some nd ∧
        nd.begin = arr.2.1 ∧ nd.count = arr.2.2.1) →
      tcount q tr (GenerateTasks prio exch arrivals st) ≤ tcount q tr st + 1) := by
  refine ⟨GenerateTasks_idem prio exch arrivals st,
    GenerateTasks_locks prio exch arrivals st, ?_⟩
  intro hal hwf
  exact GenerateTasks_nodup prio exch arrivals st hal hwf q tr

/-- Witness for `generate_tasks_idempotent`: one arrival (rank 1, [0, 50),
cache id 7) against the two-subtree state. -/
theorem generate_tasks_idempotent_witness :
    GenerateTasks exPrio exExch7 [(1, 0, 50, 7)]
        (GenerateTasks exPrio exExch7 [(1, 0, 50, 7)] exSt)
      = GenerateTasks exPrio exExch7 [(1, 0, 50, 7)] exSt ∧
    tcount 0 (1, 0, 50) (GenerateTasks exPrio exExch7 [(1, 0, 50, 7)] exSt)
      ≤ tcount 0 (1, 0, 50) exSt + 1 := by
  have h := generate_tasks_idempotent exPrio exExch7 [(1, 0, 50, 7)] exSt 0 (1, 0, 50)
  refine ⟨h.1 (by decide), h.2.2 (by decide) ?_⟩
  intro arr harr
  have ha : arr = (1, 0, 50, 7) := by simpa using harr
  subst ha
  exact ⟨Tree.leaf 0 50, rfl, rfl, rfl⟩

end TaskQueueModel
